import Mathlib

/-!
# DynamoDB attribute codec (`src/ddb/autoConvert.js`)

A shallow embedding of the encoder `attr` / `item`, the hinted encoder
`itemWithHints`, the decoder `fromAttr` / `fromItem` and the update-expression
builder `patch`, followed by the properties established about them.

Modelling conventions.

* A JavaScript object is the list of its own enumerable string-keyed properties
  in `Object.keys` order (`Obj`).  A loop `Object.keys(o).reduce((acc, key) => … o[key] …)`
  visits exactly these entries in order.  A list represents an object when its
  keys are pairwise distinct (`Obj.WF`).  An own key may be any string,
  `__proto__` and `constructor` included (as in an object read by `JSON.parse`).
* Objects written as literals inherit from `Object.prototype`.  The test
  `key in hints` is `Obj.hasProperty`: true of the own keys and of the names
  every such object inherits (`objectPrototypeKeys`).
* An array is the list of its elements (no holes).
* An assignment `obj[key] = value` is `addProp`: it overwrites the property in
  place when the key exists and appends it otherwise; for the key `__proto__` it
  runs the setter inherited from `Object.prototype`, which adds no own property.
* The built-in conversions between numbers and text, `String(n)` and
  `Number(s)`, work on IEEE doubles.  They are parameters of the development
  (`NumberConv`), so every result holds for each interpretation of them.
* A `throw` is an `Except.error`; a function of the source with no failure path
  is a total function.
-/

namespace AutoConvert

/-! ## Data model -/

/-- A JavaScript object: its own enumerable properties in `Object.keys` order. -/
abbrev Obj (α : Type) := List (String × α)

/-- The keys of an object, `Object.keys(o)`. -/
def Obj.keys {α : Type} (o : Obj α) : List String := o.map Prod.fst

/-- Read of an own property, `o[key]` for a key the object owns; `none` when the
object has no own property of that name. -/
def Obj.get {α : Type} (o : Obj α) (key : String) : Option α :=
  match o with
  | [] => none
  | (k, v) :: rest => if k = key then some v else Obj.get rest key

/-- Whether the object has an own property of that name. -/
def Obj.hasKey {α : Type} (o : Obj α) (key : String) : Bool :=
  match o with
  | [] => false
  | (k, _) :: rest => if k = key then true else Obj.hasKey rest key

/-- The names every object inherits from `Object.prototype`. -/
def objectPrototypeKeys : List String :=
  ["constructor", "__defineGetter__", "__defineSetter__", "hasOwnProperty",
    "__lookupGetter__", "__lookupSetter__", "isPrototypeOf", "propertyIsEnumerable",
    "toString", "valueOf", "__proto__", "toLocaleString"]

/-- The test `key in o` on an object that inherits from `Object.prototype`: the
object owns the key or inherits it. -/
def Obj.hasProperty {α : Type} (o : Obj α) (key : String) : Bool :=
  Obj.hasKey o key || objectPrototypeKeys.contains key

/-- A list of properties represents an object when no key occurs twice. -/
def Obj.WF {α : Type} (o : Obj α) : Prop := (Obj.keys o).Nodup

instance {α : Type} (o : Obj α) : Decidable (Obj.WF o) := by
  unfold Obj.WF
  infer_instance

/-- The built-in conversions `String(n)` (number to text) and `Number(s)`
(text to number).  They are not code of the repository. -/
class NumberConv (ν : Type) where
  /-- The text `String(n)` of a number. -/
  numberToString : ν → String
  /-- The number `Number(s)` read from a text. -/
  stringToNumber : String → ν

export NumberConv (numberToString stringToNumber)

/-- A JavaScript value as the encoder distinguishes them (`mixed`); `ν` is the
type of numbers.  `other text` is a value of any remaining kind (a function, a
date, a symbol, ...), carried with its text `String(value)`. -/
inductive Value (ν : Type) where
  | str (s : String)
  | num (n : ν)
  | bool (b : Bool)
  | null
  | undefined
  | arr (xs : List (Value ν))
  | obj (o : List (String × Value ν))
  | other (text : String)

/-- A `DynamoDbAttribute`: an object with the optional properties `S`, `N`,
`BOOL`, `NULL`, `L`, `M`, `B`, `SS`, `NS`; `none` is an absent (`undefined`)
property.  `SS` holds the value the hinted encoder stores there, unchecked
(line 46); `NS` holds the result of `value.map(String)` (line 48). -/
structure Attr (ν : Type) where
  S : Option String
  N : Option String
  BOOL : Option Bool
  NULL : Option Bool
  L : Option (List (Attr ν))
  M : Option (List (String × Attr ν))
  B : Option String
  SS : Option (Value ν)
  NS : Option (List String)

/-- The object literal with no property: no case is populated. -/
def Attr.empty {ν : Type} : Attr ν :=
  ⟨none, none, none, none, none, none, none, none, none⟩

/-- A `DynamoDbItem`: attribute name to attribute. -/
abbrev Item (ν : Type) := Obj (Attr ν)

/-- What a call can throw: the decoder's
`Error("Unknown DynamoDB attribute: " + JSON.stringify(attr))`, carried with the
offending attribute, and the engine's `TypeError` of a method call on a value
that has no such method. -/
inductive JsError (ν : Type) where
  | unknownAttribute (offending : Attr ν)
  | typeError

/-- The result of `patch`; `ExpressionAttributeValues` is absent in the second
object literal of lines 104-113. -/
structure UpdateExpressionParams (ν : Type) where
  UpdateExpression : String
  ExpressionAttributeNames : Obj String
  ExpressionAttributeValues : Option (Obj (Attr ν))

/-! ## Helpers of the source (lines 116-134) -/

/-- An assignment that defines or overwrites an own property: the property keeps
its place when the key exists and is appended otherwise. -/
def setOwn {α : Type} (obj : Obj α) (key : String) (value : α) : Obj α :=
  match obj with
  | [] => [(key, value)]
  | (k, v) :: rest =>
    if k = key then (k, value) :: rest else (k, v) :: setOwn rest key value

/-- Lines 132-134: `(obj[key] = value, obj)`, on an object built from `{}`.  For
the key `__proto__` the assignment runs the setter inherited from
`Object.prototype`: it replaces the prototype of `obj` (or does nothing, for a
value that is neither an object nor `null`) and adds no own property, so the
own properties are unchanged.  The prototype is not part of `Obj`. -/
def addProp {α : Type} (obj : Obj α) (key : String) (value : α) : Obj α :=
  if key = "__proto__" then obj else setOwn obj key value

/-- Lines 118-123: `Object.keys(o1).reduce((o2, key) => addProp(o2, key, f(o1[key])), {})`,
for a callback that returns. -/
def mapValues {α β : Type} (o1 : Obj α) (f : α → β) : Obj β :=
  o1.foldl (fun o2 kv => addProp o2 kv.1 (f kv.2)) []

/-- Lines 118-123 for a callback that may throw: the first exception ends the
loop and is the outcome. -/
def mapValuesE {α β ε : Type} (o1 : Obj α) (f : α → Except ε β) : Except ε (Obj β) :=
  o1.foldlM (fun o2 kv => (f kv.2).map (fun v => addProp o2 kv.1 v)) []

/-- Lines 125-130: `Object.keys(o1).reduce((o2, key) => addProp(o2, key, f(key, o1[key])), {})`;
the callback may throw. -/
def mapKeyValuePairs {α β ε : Type} (o1 : Obj α) (f : String → α → Except ε β) :
    Except ε (Obj β) :=
  o1.foldlM (fun o2 kv => (f kv.1 kv.2).map (fun v => addProp o2 kv.1 v)) []

/-- `sets.join(',')` on an array of strings. -/
def join (sep : String) (xs : List String) : String := sep.intercalate xs

variable {ν : Type} [NumberConv ν]

/-! ## Encoder (lines 9-28) -/

mutual
/-- Lines 17-28, `attr`.  `attrList` is `value.map(attr)` and `attrProps o []`
is `mapValues(value, attr)` (see `attrList_eq_map`, `attrProps_eq_mapValues`). -/
def attr : Value ν → Attr ν
  | .str s => { Attr.empty with S := some s }
  | .num n => { Attr.empty with N := some (numberToString n) }
  | .bool b => { Attr.empty with BOOL := some b }
  | .null => { Attr.empty with NULL := some true }
  | .undefined => { Attr.empty with NULL := some true }
  | .arr xs => { Attr.empty with L := some (attrList xs) }
  | .obj o => { Attr.empty with M := some (attrProps o []) }
  | .other text => { Attr.empty with B := some text }
termination_by structural v => v
/-- The loop of `value.map(attr)`. -/
def attrList : List (Value ν) → List (Attr ν)
  | [] => []
  | x :: xs => attr x :: attrList xs
termination_by structural xs => xs
/-- The loop of `mapValues(value, attr)` with its accumulator `o2`. -/
def attrProps : List (String × Value ν) → Obj (Attr ν) → Obj (Attr ν)
  | [], o2 => o2
  | (key, v) :: rest, o2 => attrProps rest (addProp o2 key (attr v))
termination_by structural o => o
end

/-- Lines 10-13, `item`. -/
def item (obj : Obj (Value ν)) : Item ν := mapValues obj attr

/-! ## Decoder (lines 52-74) -/

mutual
/-- Lines 61-74, `fromAttr`: the chain of `typeof attr.X !== 'undefined'` tests
in source order.  `fromAttrList` is `attr.L.map(fromAttr)` and
`fromAttrProps m []` is `mapValues(attr.M, fromAttr)`. -/
def fromAttr : Attr ν → Except (JsError ν) (Value ν)
  | ⟨S, N, BOOL, NULL, L, M, B, SS, NS⟩ =>
    match S with
    | some s => .ok (.str s)
    | none =>
    match N with
    | some n => .ok (.num (stringToNumber n))
    | none =>
    match BOOL with
    | some b => .ok (.bool b)
    | none =>
    match NULL with
    | some _ => .ok .null
    | none =>
    match L with
    | some xs => (fromAttrList xs).map .arr
    | none =>
    match M with
    | some m => (fromAttrProps m []).map .obj
    | none =>
    match B with
    | some b => .ok (.str b)
    | none =>
    match SS with
    | some v => .ok v
    | none =>
    match NS with
    | some ns => .ok (.arr (ns.map fun s => .num (stringToNumber s)))
    | none => .error (.unknownAttribute ⟨S, N, BOOL, NULL, L, M, B, SS, NS⟩)
termination_by structural a => a
/-- The loop of `attr.L.map(fromAttr)`: elements are decoded left to right. -/
def fromAttrList : List (Attr ν) → Except (JsError ν) (List (Value ν))
  | [] => .ok []
  | x :: xs =>
    match fromAttr x with
    | .error e => .error e
    | .ok v => (fromAttrList xs).map (fun vs => v :: vs)
termination_by structural xs => xs
/-- The loop of `mapValues(attr.M, fromAttr)` with its accumulator `o2`. -/
def fromAttrProps : List (String × Attr ν) → Obj (Value ν) → Except (JsError ν) (Obj (Value ν))
  | [], o2 => .ok o2
  | (key, a) :: rest, o2 =>
    match fromAttr a with
    | .error e => .error e
    | .ok v => fromAttrProps rest (addProp o2 key v)
termination_by structural m => m
end

/-- Lines 53-56, `fromItem`. -/
def fromItem (it : Item ν) : Except (JsError ν) (Obj (Value ν)) := mapValuesE it fromAttr

/-! ## Hinted encoder (lines 30-50) -/

mutual
/-- The built-in `String(value)` on the values of the model: an array is its
elements joined by commas, `null` and `undefined` elements giving the empty
text; a plain object is `[object Object]`. -/
def jsString : Value ν → String
  | .str s => s
  | .num n => numberToString n
  | .bool true => "true"
  | .bool false => "false"
  | .null => "null"
  | .undefined => "undefined"
  | .arr xs => ",".intercalate (jsStringElems xs)
  | .obj _ => "[object Object]"
  | .other text => text
termination_by structural v => v
/-- The texts of the elements of an array, as `Array.prototype.join` takes them. -/
def jsStringElems : List (Value ν) → List String
  | [] => []
  | x :: xs =>
    (match x with
      | .null => ""
      | .undefined => ""
      | y => jsString y) :: jsStringElems xs
termination_by structural xs => xs
end

/-- The hint map `AttrHints`: attribute name to the text of the hint.  It is an
object that inherits from `Object.prototype`, as the literal of the doc comment. -/
abbrev AttrHints := Obj String

/-- Lines 42-49, the callback of `itemWithHints`.  `none` is the `undefined` the
callback returns when no branch of the chain returns; `hints[key]` of an
inherited name is a function or an object, equal to neither text.
`value.map(String)`
throws a `TypeError` on a value that is not an array (a value of another kind
and an object are taken to have no callable `map` property). -/
def hintedAttr (hints : AttrHints) (key : String) (value : Value ν) :
    Except (JsError ν) (Option (Attr ν)) :=
  if !(Obj.hasProperty hints key) then
    .ok (some (attr value))
  else if Obj.get hints key = some "SS" then
    .ok (some { Attr.empty with SS := some value })
  else if Obj.get hints key = some "NS" then
    match value with
    | .arr xs => .ok (some { Attr.empty with NS := some (xs.map jsString) })
    | _ => .error .typeError
  else
    .ok none

/-- Lines 37-50, `itemWithHints`.  A property of the result is `none` when the
callback returned `undefined` for it. -/
def itemWithHints (hints : AttrHints) (obj : Obj (Value ν)) :
    Except (JsError ν) (Obj (Option (Attr ν))) :=
  mapKeyValuePairs obj (hintedAttr hints)

/-! ## Patch builder (lines 76-114) -/

/-- The test `value == null`: true of `null` and `undefined` only. -/
def Value.isNullish : Value ν → Bool
  | .null => true
  | .undefined => true
  | _ => false

/-- The accumulator of the `reduce` of lines 82-98. -/
structure PatchAcc (ν : Type) where
  sets : List String
  removes : List String
  names : Obj String
  values : Obj (Attr ν)

/-- Lines 83-96, the callback of the `reduce`, on the key and `obj[key]`. -/
def patchStep (acc : PatchAcc ν) (kv : String × Value ν) : PatchAcc ν :=
  let key := kv.1
  let name := "#" ++ key
  let value := ":" ++ key
  if kv.2.isNullish then
    { acc with
      removes := acc.removes ++ [name]
      names := addProp acc.names name key }
  else
    { acc with
      sets := acc.sets ++ [name ++ " = " ++ value]
      names := addProp acc.names name key
      values := addProp acc.values value (attr kv.2) }

/-- Line 99, `setClause`. -/
def setClause (sets : List String) : String :=
  if sets.length ≠ 0 then "SET " ++ join "," sets else ""

/-- Line 100, `removeClause`. -/
def removeClause (removes : List String) : String :=
  if removes.length ≠ 0 then "REMOVE " ++ join "," removes else ""

/-- Lines 79-114, `patch`. -/
def patch (obj : Obj (Value ν)) : UpdateExpressionParams ν :=
  let acc := obj.foldl patchStep ⟨[], [], [], []⟩
  if acc.sets.length ≠ 0 then
    { UpdateExpression := setClause acc.sets ++ " " ++ removeClause acc.removes
      ExpressionAttributeNames := acc.names
      ExpressionAttributeValues := some acc.values }
  else
    { UpdateExpression := setClause acc.sets ++ " " ++ removeClause acc.removes
      ExpressionAttributeNames := acc.names
      ExpressionAttributeValues := none }

/-! ## Notions used to state the properties -/

/-- The values of the round-trip domain: strings, numbers whose text reads back
as the same number, booleans, `null`, arrays of such values and objects (keys
pairwise distinct) of such values.  `undefined` and the values of other kinds
are not in the domain. -/
inductive Plain : Value ν → Prop where
  | str (s : String) : Plain (.str s)
  | num (n : ν) (h : stringToNumber (numberToString n) = n) : Plain (.num n)
  | bool (b : Bool) : Plain (.bool b)
  | null : Plain .null
  | arr (xs : List (Value ν)) (h : ∀ x ∈ xs, Plain x) : Plain (.arr xs)
  | obj (o : Obj (Value ν)) (hk : Obj.WF o) (h : ∀ kv ∈ o, Plain kv.2) : Plain (.obj o)

/-- The number of populated cases of an attribute, among `S`, `N`, `BOOL`,
`NULL`, `L`, `M`, `B`, `SS`, `NS`. -/
def Attr.populated {ν : Type} (a : Attr ν) : Nat :=
  a.S.isSome.toNat + a.N.isSome.toNat + a.BOOL.isSome.toNat + a.NULL.isSome.toNat
    + a.L.isSome.toNat + a.M.isSome.toNat + a.B.isSome.toNat + a.SS.isSome.toNat
    + a.NS.isSome.toNat

/-- Exactly one case is populated in the attribute and in every attribute nested
inside it through the elements of `L` and the values of `M`. -/
inductive OneTag {ν : Type} : Attr ν → Prop where
  | intro (a : Attr ν) (here : a.populated = 1)
      (inL : ∀ xs, a.L = some xs → ∀ x ∈ xs, OneTag x)
      (inM : ∀ m, a.M = some m → ∀ kv ∈ m, OneTag kv.2) : OneTag a

/-- The reference case mapping of the encoder, in the order of its rules:
string, number, boolean, `null`/`undefined`, array, plain object, anything else. -/
def attrCases (v : Value ν) : Attr ν :=
  match v with
  | .str s => { Attr.empty with S := some s }
  | .num n => { Attr.empty with N := some (numberToString n) }
  | .bool b => { Attr.empty with BOOL := some b }
  | .null => { Attr.empty with NULL := some true }
  | .undefined => { Attr.empty with NULL := some true }
  | .arr xs => { Attr.empty with L := some (xs.map attr) }
  | .obj o => { Attr.empty with M := some (o.map (fun kv => (kv.1, attr kv.2))) }
  | .other text => { Attr.empty with B := some (jsString (Value.other text : Value ν)) }

/-- The entries of the SET list: `#k = :k` for the keys whose value is neither
`null` nor `undefined`, in key order. -/
def setEntries (obj : Obj (Value ν)) : List String :=
  (obj.filter (fun kv => !kv.2.isNullish)).map (fun kv => "#" ++ kv.1 ++ " = " ++ (":" ++ kv.1))

/-- The names of the REMOVE list: `#k` for the keys whose value is `null` or
`undefined`, in key order. -/
def removeNames (obj : Obj (Value ν)) : List String :=
  (obj.filter (fun kv => kv.2.isNullish)).map (fun kv => "#" ++ kv.1)

/-- The value map of the claim: `:k` to the encoded value, for the keys whose
value is neither `null` nor `undefined`, in key order. -/
def valueEntries (obj : Obj (Value ν)) : Obj (Attr ν) :=
  (obj.filter (fun kv => !kv.2.isNullish)).map (fun kv => (":" ++ kv.1, attr kv.2))

/-- The name map of the claim: `#k` to `k` for every key, in key order. -/
def nameEntries (obj : Obj (Value ν)) : Obj String :=
  obj.map (fun kv => ("#" ++ kv.1, kv.1))

/-- The test `Array.isArray(value)`. -/
def Value.isArray : Value ν → Bool
  | .arr _ => true
  | _ => false

/-- Every key of the object that is hinted `NS` holds an array: the condition
under which `value.map(String)` does not throw. -/
def NumberSetsAreArrays (hints : AttrHints) (obj : Obj (Value ν)) : Prop :=
  ∀ kv ∈ obj, Obj.get hints kv.1 = some "NS" → kv.2.isArray = true

instance (hints : AttrHints) (obj : Obj (Value ν)) :
    Decidable (NumberSetsAreArrays hints obj) := by
  unfold NumberSetsAreArrays
  infer_instance

/-- The attribute the callback of `itemWithHints` returns when it returns:
`hintedAttr` with a hinted value that is not an array left as the `undefined`
result. -/
def hintedAttrValue (hints : AttrHints) (key : String) (value : Value ν) : Option (Attr ν) :=
  match hintedAttr hints key value with
  | .ok r => r
  | .error _ => none

/-! ## A sample interpretation of the number conversions

The theorems hold for every interpretation of `String(n)` and `Number(s)`.  To
evaluate them on concrete inputs, the examples use the interpretation below:
integers written in decimal.  It is not the interpretation of JavaScript, whose
numbers are IEEE doubles; the two agree on the safe integers written as plain
decimal literals, which are the only numbers the examples use. -/

/-- Integer-valued numbers together with `NaN`. -/
inductive IntNum where
  | int (n : Int)
  | nan
deriving DecidableEq

/-- The decimal digits of `n`, most significant first (`fuel` bounds the number
of digits). -/
def natDigits : Nat → Nat → List Char
  | 0, _ => []
  | fuel + 1, n =>
    if n < 10 then [Char.ofNat (48 + n)]
    else natDigits fuel (n / 10) ++ [Char.ofNat (48 + n % 10)]

/-- The decimal text of an integer: its digits, after a minus sign when negative. -/
def decimalText : Int → String
  | .ofNat n => String.mk (natDigits (n + 1) n)
  | .negSucc n => String.mk ('-' :: natDigits (n + 2) (n + 1))

/-- Reads a nonempty run of decimal digits, given the digits read so far. -/
def readDigits : List Char → Option Nat → Option Nat
  | [], acc => acc
  | c :: cs, acc =>
    if 48 ≤ c.toNat ∧ c.toNat ≤ 57 then
      readDigits cs (some (acc.getD 0 * 10 + (c.toNat - 48)))
    else none

/-- Reads a decimal integer literal: digits, optionally after a minus sign. -/
def readInt (s : String) : Option Int :=
  match s.data with
  | '-' :: cs => (readDigits cs none).map (fun n => - (n : Int))
  | cs => (readDigits cs none).map (fun n => (n : Int))

/-- The sample interpretation: the text of an integer is its decimal text, and
a text is read as a decimal integer literal, any other text as `nan`. -/
instance : NumberConv IntNum where
  numberToString
    | .int n => decimalText n
    | .nan => "NaN"
  stringToNumber s :=
    match readInt s with
    | some n => .int n
    | none => .nan

/-! ## Further notions used to state the properties -/

/-- The object has no own property named `__proto__`. -/
def Obj.NoProto {α : Type} (o : Obj α) : Prop := "__proto__" ∉ Obj.keys o

instance {α : Type} (o : Obj α) : Decidable (Obj.NoProto o) := by
  unfold Obj.NoProto
  infer_instance

/-- No object inside the value, the value itself included, has an own property
named `__proto__`. -/
inductive ProtoFree {ν : Type} : Value ν → Prop where
  | str (s : String) : ProtoFree (.str s)
  | num (n : ν) : ProtoFree (.num n)
  | bool (b : Bool) : ProtoFree (.bool b)
  | null : ProtoFree .null
  | undefined : ProtoFree .undefined
  | arr (xs : List (Value ν)) (h : ∀ x ∈ xs, ProtoFree x) : ProtoFree (.arr xs)
  | obj (o : Obj (Value ν)) (hk : Obj.NoProto o) (h : ∀ kv ∈ o, ProtoFree kv.2) :
      ProtoFree (.obj o)
  | other (text : String) : ProtoFree (.other text)

/-- The attribute and every attribute the decoder visits inside it have at least
one populated case.  The decoder visits the elements of `L` when `L` is the
selected case (`S`, `N`, `BOOL`, `NULL` absent) and the values of `M` when `M` is
the selected case (`L` absent as well). -/
inductive Decodable {ν : Type} : Attr ν → Prop where
  | intro (a : Attr ν) (here : 1 ≤ a.populated)
      (inL : ∀ xs, a.S = none → a.N = none → a.BOOL = none → a.NULL = none →
        a.L = some xs → ∀ x ∈ xs, Decodable x)
      (inM : ∀ m, a.S = none → a.N = none → a.BOOL = none → a.NULL = none →
        a.L = none → a.M = some m → ∀ kv ∈ m, Decodable kv.2) : Decodable a

/-- The texts of a list written one after the other with the separator between
consecutive ones, and nowhere else. -/
def separatedBy (sep : String) : List String → String
  | [] => ""
  | [e] => e
  | e :: e' :: rest => e ++ sep ++ separatedBy sep (e' :: rest)

/-- The decoder `fromAttr` on a property of a hinted item: when the property is
`undefined`, reading `attr.S` (line 64) throws a `TypeError`. -/
def fromAttrOrUndefined : Option (Attr ν) → Except (JsError ν) (Value ν)
  | some a => fromAttr a
  | none => .error .typeError

/-- Lines 53-56, `fromItem`, on the result of `itemWithHints`. -/
def fromHintedItem (it : Obj (Option (Attr ν))) : Except (JsError ν) (Obj (Value ν)) :=
  mapValuesE it fromAttrOrUndefined

/-- Every hint is the text `SS` or the text `NS`. -/
def HintsAreSets (hints : AttrHints) : Prop :=
  ∀ h ∈ hints, h.2 = "SS" ∨ h.2 = "NS"

instance (hints : AttrHints) : Decidable (HintsAreSets hints) := by
  unfold HintsAreSets
  infer_instance

/-- The objects of the hinted round trip: a key hinted `SS` holds a list of
strings, a key hinted `NS` holds a list of numbers whose text reads back as the
same number, and a key with no hint holds a value of the round-trip domain. -/
def HintedPlain (hints : AttrHints) (obj : Obj (Value ν)) : Prop :=
  ∀ kv ∈ obj,
    (Obj.get hints kv.1 = some "SS" → ∃ xs : List String, kv.2 = .arr (xs.map Value.str))
      ∧ (Obj.get hints kv.1 = some "NS" →
          ∃ ns : List ν, kv.2 = .arr (ns.map Value.num)
            ∧ ∀ n ∈ ns, stringToNumber (numberToString n) = n)
      ∧ (Obj.hasKey hints kv.1 = false → Plain kv.2)

/-! ## Properties of the helpers -/

theorem keys_append {α : Type} (o₁ o₂ : Obj α) :
    Obj.keys (o₁ ++ o₂) = Obj.keys o₁ ++ Obj.keys o₂ := by
  simp [Obj.keys]

theorem setOwn_of_not_mem {α : Type} (o : Obj α) (key : String) (value : α)
    (h : key ∉ Obj.keys o) : setOwn o key value = o ++ [(key, value)] := by
  induction o with
  | nil => rfl
  | cons p rest ih =>
    obtain ⟨k, v⟩ := p
    have hk : k ≠ key := fun e => h (by simp [Obj.keys, e])
    have hr : key ∉ Obj.keys rest := fun m => h (by simp [Obj.keys] at m ⊢; exact Or.inr m)
    simp [setOwn, hk, ih hr]

theorem mem_setOwn {α : Type} (o : Obj α) (key : String) (value : α) (p : String × α)
    (h : p ∈ setOwn o key value) : p ∈ o ∨ p = (key, value) := by
  induction o with
  | nil => simpa [setOwn] using h
  | cons q rest ih =>
    obtain ⟨k, v⟩ := q
    by_cases hk : k = key
    · subst hk
      simp only [setOwn, if_true, List.mem_cons] at h
      rcases h with h | h
      · exact Or.inr h
      · exact Or.inl (List.mem_cons_of_mem _ h)
    · simp only [setOwn, hk, if_false, List.mem_cons] at h
      rcases h with h | h
      · exact Or.inl (h ▸ List.mem_cons_self _ _)
      · rcases ih h with h | h
        · exact Or.inl (List.mem_cons_of_mem _ h)
        · exact Or.inr h

/-- An assignment to `__proto__` leaves the own properties as they are. -/
theorem addProp_proto {α : Type} (o : Obj α) (value : α) :
    addProp o "__proto__" value = o := by
  simp [addProp]

theorem addProp_of_not_mem {α : Type} (o : Obj α) (key : String) (value : α)
    (h : key ∉ Obj.keys o) (hk : key ≠ "__proto__") :
    addProp o key value = o ++ [(key, value)] := by
  simp [addProp, hk, setOwn_of_not_mem o key value h]

theorem mem_addProp {α : Type} (o : Obj α) (key : String) (value : α) (p : String × α)
    (h : p ∈ addProp o key value) : p ∈ o ∨ p = (key, value) := by
  unfold addProp at h
  split at h
  · exact Or.inl h
  · exact mem_setOwn o key value p h

/-- Folding `addProp` over entries whose keys are new and pairwise distinct
appends them in order, except the entry of the key `__proto__`. -/
theorem foldl_addProp_filter {α β : Type} (kf : α → String) (g : α → β) (l : List α)
    (acc : Obj β) (h : (Obj.keys acc ++ l.map kf).Nodup) :
    l.foldl (fun o2 x => addProp o2 (kf x) (g x)) acc
      = acc ++ (l.filter (fun x => decide (kf x ≠ "__proto__"))).map (fun x => (kf x, g x)) := by
  induction l generalizing acc with
  | nil => simp
  | cons x rest ih =>
    by_cases hp : kf x = "__proto__"
    · have h2 : (Obj.keys acc ++ rest.map kf).Nodup := by
        refine List.Nodup.sublist ?_ h
        simp only [List.map_cons]
        exact List.Sublist.append_left (List.sublist_cons_self _ _) _
      simp only [List.foldl_cons, hp, addProp_proto, ih _ h2]
      simp [hp]
    · have hx : kf x ∉ Obj.keys acc := by
        intro m
        have := List.nodup_append.mp h
        exact this.2.2 m (by simp)
      have h2 : (Obj.keys (acc ++ [(kf x, g x)]) ++ rest.map kf).Nodup := by
        simpa [keys_append, Obj.keys, List.append_assoc] using h
      simp only [List.foldl_cons, addProp_of_not_mem acc (kf x) (g x) hx hp, ih _ h2]
      simp [hp]

/-- Folding `addProp` over entries whose keys are new, pairwise distinct and
other than `__proto__` appends them in order. -/
theorem foldl_addProp_nodup {α β : Type} (kf : α → String) (g : α → β) (l : List α)
    (acc : Obj β) (h : (Obj.keys acc ++ l.map kf).Nodup) (hp : ∀ x ∈ l, kf x ≠ "__proto__") :
    l.foldl (fun o2 x => addProp o2 (kf x) (g x)) acc = acc ++ l.map (fun x => (kf x, g x)) := by
  rw [foldl_addProp_filter kf g l acc h]
  have : l.filter (fun x => decide (kf x ≠ "__proto__")) = l :=
    List.filter_eq_self.mpr (fun x hx => by simpa using hp x hx)
  rw [this]

theorem mem_foldl_addProp {α β : Type} (kf : α → String) (g : α → β) (l : List α)
    (acc : Obj β) (p : String × β)
    (h : p ∈ l.foldl (fun o2 x => addProp o2 (kf x) (g x)) acc) :
    p ∈ acc ∨ ∃ x ∈ l, p = (kf x, g x) := by
  induction l generalizing acc with
  | nil => exact Or.inl h
  | cons x rest ih =>
    rcases ih _ h with h | ⟨y, hy, e⟩
    · rcases mem_addProp _ _ _ _ h with h | h
      · exact Or.inl h
      · exact Or.inr ⟨x, List.mem_cons_self _ _, h⟩
    · exact Or.inr ⟨y, List.mem_cons_of_mem _ hy, e⟩

theorem noProto_iff {α : Type} (o : Obj α) :
    Obj.NoProto o ↔ ∀ kv ∈ o, kv.1 ≠ "__proto__" := by
  unfold Obj.NoProto Obj.keys
  constructor
  · intro h kv hkv e
    exact h (List.mem_map.mpr ⟨kv, hkv, e⟩)
  · intro h m
    obtain ⟨kv, hkv, e⟩ := List.mem_map.mp m
    exact h kv hkv e

/-- On an object with no own key `__proto__`, `mapValues` keeps the entries in
place and maps the values. -/
theorem mapValues_eq_map {α β : Type} (o1 : Obj α) (f : α → β) (h : Obj.WF o1)
    (hp : Obj.NoProto o1) : mapValues o1 f = o1.map (fun kv => (kv.1, f kv.2)) := by
  have := foldl_addProp_nodup (fun kv : String × α => kv.1) (fun kv => f kv.2) o1 []
    (by simpa [Obj.keys, Obj.WF] using h) ((noProto_iff o1).mp hp)
  simpa [mapValues] using this

/-- On any object, `mapValues` drops the own key `__proto__`, keeps the other
entries in place and maps their values. -/
theorem mapValues_eq_filter_map {α β : Type} (o1 : Obj α) (f : α → β) (h : Obj.WF o1) :
    mapValues o1 f
      = (o1.filter (fun kv => decide (kv.1 ≠ "__proto__"))).map (fun kv => (kv.1, f kv.2)) := by
  have := foldl_addProp_filter (fun kv : String × α => kv.1) (fun kv => f kv.2) o1 []
    (by simpa [Obj.keys, Obj.WF] using h)
  simpa [mapValues] using this

theorem mem_mapValues {α β : Type} (o1 : Obj α) (f : α → β) (p : String × β)
    (h : p ∈ mapValues o1 f) : ∃ kv ∈ o1, p = (kv.1, f kv.2) := by
  rcases mem_foldl_addProp (fun kv : String × α => kv.1) (fun kv => f kv.2) o1 [] p h with h | h
  · cases h
  · exact h

/-- A loop whose callback returns on every entry is the loop of the returned
values. -/
theorem foldlM_addProp_ok {α β ε : Type} (f : String × α → Except ε β) (g : String × α → β)
    (l : Obj α) (acc : Obj β) (h : ∀ kv ∈ l, f kv = .ok (g kv)) :
    l.foldlM (fun o2 kv => (f kv).map (fun v => addProp o2 kv.1 v)) acc
      = .ok (l.foldl (fun o2 kv => addProp o2 kv.1 (g kv)) acc) := by
  induction l generalizing acc with
  | nil => rfl
  | cons x rest ih =>
    have hx := h x (List.mem_cons_self _ _)
    have hr : ∀ kv ∈ rest, f kv = .ok (g kv) := fun kv m => h kv (List.mem_cons_of_mem _ m)
    simp only [List.foldlM_cons, List.foldl_cons, hx, Except.map]
    exact ih _ hr

theorem keys_map_snd {α β : Type} (o : Obj α) (g : String × α → β) :
    Obj.keys (o.map (fun kv => (kv.1, g kv))) = Obj.keys o := by
  simp [Obj.keys, Function.comp_def]

theorem get_map {α β : Type} (o : Obj α) (g : String → α → β) (key : String) :
    Obj.get (o.map (fun kv => (kv.1, g kv.1 kv.2))) key = (Obj.get o key).map (g key) := by
  induction o with
  | nil => rfl
  | cons p rest ih =>
    obtain ⟨k, v⟩ := p
    by_cases hk : k = key
    · subst hk; simp [Obj.get]
    · simp [Obj.get, hk, ih]

theorem get_some_mem {α : Type} (o : Obj α) (key : String) (v : α)
    (h : Obj.get o key = some v) : (key, v) ∈ o := by
  induction o with
  | nil => cases h
  | cons p rest ih =>
    obtain ⟨k, w⟩ := p
    by_cases hk : k = key
    · subst hk
      simp [Obj.get] at h
      simp [h]
    · simp [Obj.get, hk] at h
      exact List.mem_cons_of_mem _ (ih h)

theorem hasKey_eq_true_of_get {α : Type} (o : Obj α) (key : String) (v : α)
    (h : Obj.get o key = some v) : Obj.hasKey o key = true := by
  induction o with
  | nil => cases h
  | cons p rest ih =>
    obtain ⟨k, w⟩ := p
    by_cases hk : k = key
    · simp [Obj.hasKey, hk]
    · simp [Obj.get, hk] at h
      simp [Obj.hasKey, hk, ih h]

theorem get_filter_map {α β : Type} (o : Obj α) (g : String → α → β) (key : String)
    (hk : key ≠ "__proto__") :
    Obj.get ((o.filter (fun kv => decide (kv.1 ≠ "__proto__"))).map
        (fun kv => (kv.1, g kv.1 kv.2))) key
      = (Obj.get o key).map (g key) := by
  induction o with
  | nil => rfl
  | cons p rest ih =>
    obtain ⟨k, v⟩ := p
    by_cases hp : k = "__proto__"
    · subst hp
      have hne : ¬ ("__proto__" = key) := fun e => hk e.symm
      simpa [List.filter_cons, Obj.get, hne] using ih
    · by_cases e : k = key
      · subst e; simp [List.filter_cons, hp, Obj.get]
      · simp only [List.filter_cons, hp, ne_eq, not_false_eq_true, decide_True, if_true,
          List.map_cons, Obj.get, e, if_false]
        exact ih

theorem keys_filter_noProto {α : Type} (o : Obj α) (hp : Obj.NoProto o) :
    o.filter (fun kv => decide (kv.1 ≠ "__proto__")) = o :=
  List.filter_eq_self.mpr (fun kv hkv => by simpa using (noProto_iff o).mp hp kv hkv)

theorem hasProperty_of_get {α : Type} (o : Obj α) (key : String) (v : α)
    (h : Obj.get o key = some v) : Obj.hasProperty o key = true := by
  simp [Obj.hasProperty, hasKey_eq_true_of_get o key v h]

theorem ne_proto_of_not_hasProperty {α : Type} (o : Obj α) (key : String)
    (h : Obj.hasProperty o key = false) : key ≠ "__proto__" := by
  intro e
  subst e
  simp [Obj.hasProperty, objectPrototypeKeys] at h

/-- A name placeholder is never the key `__proto__`. -/
theorem hash_ne_proto (k : String) : "#" ++ k ≠ "__proto__" := by
  intro e
  have h := congrArg String.data e
  simp only [String.data_append] at h
  have h2 := congrArg List.head? h
  simp at h2

/-- A value placeholder is never the key `__proto__`. -/
theorem colon_ne_proto (k : String) : ":" ++ k ≠ "__proto__" := by
  intro e
  have h := congrArg String.data e
  simp only [String.data_append] at h
  have h2 := congrArg List.head? h
  simp at h2

/-- Prefixing a key with a fixed text keeps distinct keys distinct. -/
theorem append_left_cancel (p a b : String) (h : p ++ a = p ++ b) : a = b := by
  have := congrArg String.data h
  simp only [String.data_append] at this
  exact String.ext (List.append_cancel_left this)

/-! ## The encoder and the decoder as the source writes them -/

/-- Structural induction on values: a property that holds of an array when it
holds of its elements, and of an object when it holds of its property values,
holds of every value. -/
theorem Value.induct {ν : Type} {P : Value ν → Prop}
    (str : ∀ s, P (.str s)) (num : ∀ n, P (.num n)) (bool : ∀ b, P (.bool b))
    (null : P .null) (undefined : P .undefined)
    (arr : ∀ xs, (∀ x ∈ xs, P x) → P (.arr xs))
    (obj : ∀ o, (∀ kv ∈ o, P kv.2) → P (.obj o))
    (other : ∀ t, P (.other t)) : ∀ v, P v := by
  intro v
  refine Value.rec (motive_1 := P) (motive_2 := fun xs => ∀ x ∈ xs, P x)
    (motive_3 := fun o => ∀ kv ∈ o, P kv.2) (motive_4 := fun kv => P kv.2)
    str num bool null undefined arr obj other ?_ ?_ ?_ ?_ ?_ v
  · intro x hx; cases hx
  · intro head tail hh ht x hx
    rcases List.mem_cons.mp hx with e | m
    · exact e ▸ hh
    · exact ht x m
  · intro kv hkv; cases hkv
  · intro head tail hh ht kv hkv
    rcases List.mem_cons.mp hkv with e | m
    · exact e ▸ hh
    · exact ht kv m
  · intro k v hv; exact hv

/-- Line 24: the `L` case holds `value.map(attr)`. -/
theorem attrList_eq_map (xs : List (Value ν)) : attrList xs = xs.map attr := by
  induction xs with
  | nil => rfl
  | cons x rest ih => simp [attrList, ih]

theorem attrProps_eq_foldl (o : Obj (Value ν)) (o2 : Obj (Attr ν)) :
    attrProps o o2 = o.foldl (fun acc kv => addProp acc kv.1 (attr kv.2)) o2 := by
  induction o generalizing o2 with
  | nil => rfl
  | cons p rest ih =>
    obtain ⟨k, v⟩ := p
    simp [attrProps, ih]

/-- Line 26: the `M` case holds `mapValues(value, attr)`. -/
theorem attrProps_eq_mapValues (o : Obj (Value ν)) : attrProps o [] = mapValues o attr :=
  attrProps_eq_foldl o []

theorem attr_arr (xs : List (Value ν)) :
    attr (.arr xs) = { Attr.empty with L := some (xs.map attr) } := by
  simp [attr, attrList_eq_map]

theorem attr_obj (o : Obj (Value ν)) :
    attr (.obj o) = { Attr.empty with M := some (mapValues o attr) } := by
  simp [attr, attrProps_eq_mapValues]

/-- Line 68: `attr.L.map(fromAttr)`, the first exception being the outcome. -/
theorem fromAttrList_eq_mapM (xs : List (Attr ν)) : fromAttrList xs = xs.mapM fromAttr := by
  induction xs with
  | nil => rfl
  | cons x rest ih =>
    simp only [fromAttrList, List.mapM_cons, ih]
    cases fromAttr x <;> cases List.mapM fromAttr rest <;> rfl

theorem fromAttrProps_eq_foldlM (m : Obj (Attr ν)) (o2 : Obj (Value ν)) :
    fromAttrProps m o2
      = m.foldlM (fun acc kv => (fromAttr kv.2).map (fun v => addProp acc kv.1 v)) o2 := by
  induction m generalizing o2 with
  | nil => rfl
  | cons p rest ih =>
    obtain ⟨k, a⟩ := p
    simp only [fromAttrProps, List.foldlM_cons]
    cases h : fromAttr a with
    | error e => rfl
    | ok v => simp only [Except.map]; exact ih _

/-- Line 69: the `M` case is decoded by `mapValues(attr.M, fromAttr)`. -/
theorem fromAttrProps_eq_mapValuesE (m : Obj (Attr ν)) :
    fromAttrProps m [] = mapValuesE m fromAttr :=
  fromAttrProps_eq_foldlM m []

/-! ## Round trip (C1) -/

theorem fromAttrList_attrList (xs : List (Value ν))
    (ih : ∀ x ∈ xs, fromAttr (attr x) = .ok x) : fromAttrList (attrList xs) = .ok xs := by
  induction xs with
  | nil => rfl
  | cons x rest ihr =>
    have hx := ih x (List.mem_cons_self _ _)
    have hr := ihr (fun y m => ih y (List.mem_cons_of_mem _ m))
    simp [attrList, fromAttrList, hx, hr, Except.map]

theorem fromAttrProps_map_attr (o : Obj (Value ν)) (o2 : Obj (Value ν))
    (ih : ∀ kv ∈ o, fromAttr (attr kv.2) = .ok kv.2) :
    fromAttrProps (o.map (fun kv => (kv.1, attr kv.2))) o2
      = .ok (o.foldl (fun acc kv => addProp acc kv.1 kv.2) o2) := by
  induction o generalizing o2 with
  | nil => rfl
  | cons p rest ihr =>
    have hp := ih p (List.mem_cons_self _ _)
    have hr := fun acc => ihr acc (fun y m => ih y (List.mem_cons_of_mem _ m))
    simp only [List.map_cons, fromAttrProps, hp, List.foldl_cons]
    exact hr _

/-- Decoding the encoding of a value of the round-trip domain that has no own
key `__proto__`, at any depth, returns the value. -/
theorem fromAttr_attr_plain (v : Value ν) (h : Plain v) (hp : ProtoFree v) :
    fromAttr (attr v) = .ok v := by
  induction v using Value.induct with
  | str s => rfl
  | num n =>
    cases h with
    | num _ hn => simp [attr, fromAttr, Attr.empty, hn]
  | bool b => rfl
  | null => rfl
  | undefined => cases h
  | arr xs ih =>
    cases h with
    | arr _ hxs =>
      cases hp with
      | arr _ hpx =>
        have := fromAttrList_attrList xs (fun x m => ih x m (hxs x m) (hpx x m))
        simp [attr, fromAttr, Attr.empty, this, Except.map]
  | obj o ih =>
    cases h with
    | obj _ hk ho =>
      cases hp with
      | obj _ hpk hpo =>
        have h1 : attrProps o [] = o.map (fun kv => (kv.1, attr kv.2)) := by
          rw [attrProps_eq_mapValues, mapValues_eq_map o attr hk hpk]
        have h2 := fromAttrProps_map_attr o [] (fun kv m => ih kv m (ho kv m) (hpo kv m))
        have h3 : o.foldl (fun acc kv => addProp acc kv.1 kv.2) [] = o := by
          have := foldl_addProp_nodup (fun kv : String × Value ν => kv.1) (fun kv => kv.2) o []
            (by simpa [Obj.keys, Obj.WF] using hk) ((noProto_iff o).mp hpk)
          simpa using this
        simp [attr, fromAttr, Attr.empty, h1, h2, h3, Except.map]
  | other t => cases h

/-- C1. Round trip on an object with the own key __proto__ (as JSON.parse
builds it): the encoder assigns that key to the map it builds, which gives the
map no property, so the key is missing from the encoded M and from the decoded
object and the round trip does not return the value; without that key the same
object round-trips. -/
theorem roundtrip_proto_key :
    attr (Value.obj [("__proto__", .str "x"), ("a", .num (IntNum.int 1))])
        = { Attr.empty with M := some [("a", { Attr.empty with N := some "1" })] }
      ∧ fromAttr (attr (Value.obj [("__proto__", .str "x"), ("a", .num (IntNum.int 1))]))
        = .ok (Value.obj [("a", .num (IntNum.int 1))])
      ∧ fromAttr (attr (Value.obj [("__proto__", .str "x"), ("a", .num (IntNum.int 1))]))
        ≠ .ok (Value.obj [("__proto__", .str "x"), ("a", .num (IntNum.int 1))])
      ∧ fromAttr (attr (Value.obj [("a", .num (IntNum.int 1))]))
        = .ok (Value.obj [("a", .num (IntNum.int 1))]) := by
  refine ⟨rfl, rfl, ?_, rfl⟩
  have e : fromAttr (attr (Value.obj [("__proto__", .str "x"), ("a", .num (IntNum.int 1))]))
      = .ok (Value.obj [("a", .num (IntNum.int 1))]) := rfl
  rw [e]
  intro h
  have h1 := Except.ok.inj h
  have h2 := congrArg List.length (Value.obj.inj h1)
  simp at h2

/-! ## Exactly one tag (C2) -/

/-- C2. Exactly-one-tag invariant: for every value, the encoded attribute has
exactly one of the nine cases populated, and so has every attribute nested in it
through the elements of L and the values of M. -/
theorem attr_oneTag (v : Value ν) : OneTag (attr v) := by
  induction v using Value.induct with
  | str s => exact OneTag.intro _ rfl (fun _ h => by cases h) (fun _ h => by cases h)
  | num n => exact OneTag.intro _ rfl (fun _ h => by cases h) (fun _ h => by cases h)
  | bool b => exact OneTag.intro _ rfl (fun _ h => by cases h) (fun _ h => by cases h)
  | null => exact OneTag.intro _ rfl (fun _ h => by cases h) (fun _ h => by cases h)
  | undefined => exact OneTag.intro _ rfl (fun _ h => by cases h) (fun _ h => by cases h)
  | arr xs ih =>
    rw [attr_arr]
    refine OneTag.intro _ rfl ?_ (fun _ h => by cases h)
    intro ys hys y hy
    cases hys
    obtain ⟨x, hx, rfl⟩ := List.mem_map.mp hy
    exact ih x hx
  | obj o ih =>
    rw [attr_obj]
    refine OneTag.intro _ rfl (fun _ h => by cases h) ?_
    intro m hm kv hkv
    cases hm
    obtain ⟨p, hp, rfl⟩ := mem_mapValues o attr kv hkv
    exact ih p hp
  | other t => exact OneTag.intro _ rfl (fun _ h => by cases h) (fun _ h => by cases h)

/-! ## The case mapping of the encoder (C3) -/

/-- On a value that is not an object with an own key `__proto__`, the encoder is
the reference case mapping. -/
theorem attr_eq_attrCases_of_noProto (v : Value ν) (h : ∀ o, v = .obj o → Obj.WF o)
    (hp : ∀ o, v = .obj o → Obj.NoProto o) : attr v = attrCases v := by
  cases v with
  | arr xs => exact attr_arr xs
  | obj o => rw [attr_obj, mapValues_eq_map o attr (h o rfl) (hp o rfl)]; rfl
  | _ => rfl

/-- C3. The encoder on an object with the own key __proto__ (as JSON.parse
builds it): the reference case mapping gives M with the same keys, the encoder
gives M without the key __proto__, since the assignment of that key to the map
adds no property; on the other cases, and on an object without that key, the
two agree. -/
theorem attr_proto_key :
    attr (Value.obj [("__proto__", .str "x"), ("a", .num (IntNum.int 1))])
        = { Attr.empty with M := some [("a", { Attr.empty with N := some "1" })] }
      ∧ attrCases (Value.obj [("__proto__", .str "x"), ("a", .num (IntNum.int 1))])
        = { Attr.empty with M := some [("__proto__", { Attr.empty with S := some "x" }),
              ("a", { Attr.empty with N := some "1" })] }
      ∧ (attr (Value.obj [("__proto__", .str "x"), ("a", .num (IntNum.int 1))])).M
        ≠ (attrCases (Value.obj [("__proto__", .str "x"), ("a", .num (IntNum.int 1))])).M
      ∧ attr (Value.obj [("a", .num (IntNum.int 1))])
        = attrCases (Value.obj [("a", .num (IntNum.int 1))]) := by
  refine ⟨rfl, rfl, ?_, rfl⟩
  intro h
  have e1 : (attr (Value.obj [("__proto__", .str "x"), ("a", .num (IntNum.int 1))])).M
      = some [("a", { Attr.empty with N := some "1" })] := rfl
  have e2 : (attrCases (Value.obj [("__proto__", .str "x"), ("a", .num (IntNum.int 1))])).M
      = some [("__proto__", { Attr.empty with S := some "x" }),
          ("a", { Attr.empty with N := some "1" })] := rfl
  rw [e1, e2] at h
  have hl := congrArg (Option.map List.length) h
  simp at hl

/-! ## Decode failure (C4) -/

/-- C4. Decode failure: on an attribute with none of the nine cases populated
the decoder fails with the unknown-attribute error, which carries the offending
attribute; no value is returned. -/
theorem fromAttr_unpopulated (a : Attr ν) (h : a.populated = 0) :
    fromAttr a = .error (.unknownAttribute a) := by
  obtain ⟨S, N, BOOL, NULL, L, M, B, SS, NS⟩ := a
  cases S <;> cases N <;> cases BOOL <;> cases NULL <;> cases L <;> cases M <;> cases B
    <;> cases SS <;> cases NS <;> simp [Attr.populated] at h
  rfl

/-- Witness of C4 on the attribute with no property. -/
theorem fromAttr_unpopulated_witness :
    (Attr.empty : Attr IntNum).populated = 0
      ∧ fromAttr (Attr.empty : Attr IntNum) = .error (.unknownAttribute Attr.empty) :=
  ⟨by decide, fromAttr_unpopulated Attr.empty (by decide)⟩

/-! ## Patch builder (C5, C6, C7) -/

theorem patch_fold_sets (obj : Obj (Value ν)) (acc : PatchAcc ν) :
    (obj.foldl patchStep acc).sets = acc.sets ++ setEntries obj := by
  induction obj generalizing acc with
  | nil => simp [setEntries]
  | cons p rest ih =>
    rw [List.foldl_cons, ih]
    by_cases hp : p.2.isNullish = true
    · simp [patchStep, setEntries, hp]
    · simp [patchStep, setEntries, hp]

theorem patch_fold_removes (obj : Obj (Value ν)) (acc : PatchAcc ν) :
    (obj.foldl patchStep acc).removes = acc.removes ++ removeNames obj := by
  induction obj generalizing acc with
  | nil => simp [removeNames]
  | cons p rest ih =>
    rw [List.foldl_cons, ih]
    by_cases hp : p.2.isNullish = true
    · simp [patchStep, removeNames, hp]
    · simp [patchStep, removeNames, hp]

theorem patch_fold_names (obj : Obj (Value ν)) (acc : PatchAcc ν) :
    (obj.foldl patchStep acc).names
      = obj.foldl (fun n kv => addProp n ("#" ++ kv.1) kv.1) acc.names := by
  induction obj generalizing acc with
  | nil => rfl
  | cons p rest ih =>
    rw [List.foldl_cons, ih]
    by_cases hp : p.2.isNullish = true
    · simp [patchStep, hp]
    · simp [patchStep, hp]

theorem patch_fold_values (obj : Obj (Value ν)) (acc : PatchAcc ν) :
    (obj.foldl patchStep acc).values
      = (obj.filter (fun kv => !kv.2.isNullish)).foldl
          (fun m kv => addProp m (":" ++ kv.1) (attr kv.2)) acc.values := by
  induction obj generalizing acc with
  | nil => rfl
  | cons p rest ih =>
    rw [List.foldl_cons, ih]
    by_cases hp : p.2.isNullish = true
    · simp [patchStep, hp]
    · simp [patchStep, hp]

theorem patch_updateExpression_eq (obj : Obj (Value ν)) :
    (patch obj).UpdateExpression
      = setClause (setEntries obj) ++ " " ++ removeClause (removeNames obj) := by
  have hs := patch_fold_sets obj ⟨[], [], [], []⟩
  have hr := patch_fold_removes obj ⟨[], [], [], []⟩
  simp only [List.nil_append] at hs hr
  unfold patch
  simp only [hs, hr]
  split <;> rfl

/-- C5. Patch expression assembly: the update expression is the SET clause, one
space, then the REMOVE clause; the SET clause is the keyword SET followed by the
entries #k = :k of the keys with a non-null value in key order, the REMOVE
clause is the keyword REMOVE followed by the names #k of the keys with a null or
undefined value in key order, and a clause with an empty list is the empty
string.  For name Bob and age null it is SET #name = :name REMOVE #age. -/
theorem patch_updateExpression (obj : Obj (Value ν)) :
    (patch obj).UpdateExpression
        = (if setEntries obj = [] then "" else "SET " ++ ",".intercalate (setEntries obj))
          ++ " "
          ++ (if removeNames obj = [] then "" else "REMOVE " ++ ",".intercalate (removeNames obj))
      ∧ (patch [("name", (Value.str "Bob" : Value ν)), ("age", Value.null)]).UpdateExpression
        = "SET #name = :name REMOVE #age" := by
  refine ⟨?_, rfl⟩
  rw [patch_updateExpression_eq]
  simp only [setClause, removeClause, join, ne_eq, List.length_eq_zero, ite_not]

theorem nodup_map_append_key {α : Type} (p : String) (l : Obj α) (h : Obj.WF l) :
    (l.map (fun kv => p ++ kv.1)).Nodup := by
  have : l.map (fun kv => p ++ kv.1) = (Obj.keys l).map (fun k => p ++ k) := by
    simp [Obj.keys, Function.comp_def]
  rw [this]
  exact List.Nodup.map (fun a b e => append_left_cancel p a b e) h

theorem wf_filter {α : Type} (q : String × α → Bool) (l : Obj α) (h : Obj.WF l) :
    Obj.WF (l.filter q) := by
  unfold Obj.WF Obj.keys at *
  exact List.Nodup.sublist (List.Sublist.map _ (List.filter_sublist l)) h

theorem get_valueEntries (obj : Obj (Value ν)) (k : String) (v : Value ν)
    (hk : Obj.get obj k = some v) (hn : v.isNullish = false) :
    Obj.get (valueEntries obj) (":" ++ k) = some (attr v) := by
  induction obj with
  | nil => cases hk
  | cons p rest ih =>
    obtain ⟨k', w⟩ := p
    by_cases e : k' = k
    · subst e
      simp only [Obj.get, if_true, Option.some.injEq] at hk
      subst hk
      simp [valueEntries, hn, Obj.get]
    · simp only [Obj.get, e, if_false] at hk
      have ne : ¬ (":" ++ k' = ":" ++ k) := fun e' => e (append_left_cancel ":" _ _ e')
      by_cases hw : w.isNullish = true
      · simpa [valueEntries, hw] using ih hk
      · have := ih hk
        simp only [valueEntries] at this
        simp [valueEntries, hw, Obj.get, ne, this]

/-- C6. Patch value map: the result has an ExpressionAttributeValues field if
and only if some key of the object has a non-null value; when present it is the
mapping of :k to the encoded whole value attr(obj[k]) for exactly the keys k
with a non-null value, with no entry for the other keys. -/
theorem patch_values (obj : Obj (Value ν)) (h : Obj.WF obj) :
    ((patch obj).ExpressionAttributeValues.isSome = true
        ↔ ∃ kv ∈ obj, kv.2.isNullish = false)
      ∧ (∀ vals, (patch obj).ExpressionAttributeValues = some vals → vals = valueEntries obj)
      ∧ (∀ k v, Obj.get obj k = some v → v.isNullish = false →
          Obj.get (valueEntries obj) (":" ++ k) = some (attr v))
      ∧ Obj.keys (valueEntries obj)
          = ((obj.filter (fun kv => !kv.2.isNullish)).map (fun kv => ":" ++ kv.1)) := by
  have hs := patch_fold_sets obj ⟨[], [], [], []⟩
  have hv := patch_fold_values obj ⟨[], [], [], []⟩
  simp only [List.nil_append] at hs
  have hvals : (obj.foldl patchStep ⟨[], [], [], []⟩).values = valueEntries obj := by
    rw [hv]
    have := foldl_addProp_nodup (fun kv : String × Value ν => ":" ++ kv.1)
      (fun kv => attr kv.2) (obj.filter (fun kv => !kv.2.isNullish)) []
      (by simpa [Obj.keys] using nodup_map_append_key ":" _ (wf_filter _ obj h))
      (fun kv _ => colon_ne_proto kv.1)
    simpa [valueEntries] using this
  have hlen : (setEntries obj).length ≠ 0 ↔ ∃ kv ∈ obj, kv.2.isNullish = false := by
    simp only [setEntries, List.length_map, ne_eq, List.length_eq_zero, List.filter_eq_nil_iff,
      not_forall, Bool.not_eq_true, Bool.not_eq_eq_eq_not, Bool.not_true, Bool.not_false]
    constructor
    · rintro ⟨kv, hm, hn⟩; exact ⟨kv, hm, by simpa using hn⟩
    · rintro ⟨kv, hm, hn⟩; exact ⟨kv, hm, by simpa using hn⟩
  refine ⟨?_, ?_, ?_, ?_⟩
  · rw [← hlen]
    unfold patch
    simp only [hs]
    split <;> simp_all
  · intro vals hvs
    unfold patch at hvs
    simp only [hs, hvals] at hvs
    split at hvs
    · simpa using hvs.symm
    · cases hvs
  · exact fun k v hk hn => get_valueEntries obj k v hk hn
  · simp [valueEntries, Obj.keys, Function.comp_def]

/-- C7. Patch name map: ExpressionAttributeNames is always present and is the
mapping of #k to k for every key k of the object, null-valued or not; distinct
keys give distinct name placeholders and distinct value placeholders, so the
name map has as many entries as the object has keys. -/
theorem patch_names (obj : Obj (Value ν)) (h : Obj.WF obj) :
    (patch obj).ExpressionAttributeNames = nameEntries obj
      ∧ (∀ k v, Obj.get obj k = some v → Obj.get (nameEntries obj) ("#" ++ k) = some k)
      ∧ (∀ k₁ k₂ : String, "#" ++ k₁ = "#" ++ k₂ → k₁ = k₂)
      ∧ (∀ k₁ k₂ : String, ":" ++ k₁ = ":" ++ k₂ → k₁ = k₂)
      ∧ Obj.WF (patch obj).ExpressionAttributeNames
      ∧ (patch obj).ExpressionAttributeNames.length = obj.length := by
  have hn := patch_fold_names obj ⟨[], [], [], []⟩
  have hnames : (obj.foldl patchStep ⟨[], [], [], []⟩).names = nameEntries obj := by
    rw [hn]
    have := foldl_addProp_nodup (fun kv : String × Value ν => "#" ++ kv.1)
      (fun kv => kv.1) obj [] (by simpa [Obj.keys] using nodup_map_append_key "#" obj h)
      (fun kv _ => hash_ne_proto kv.1)
    simpa [nameEntries] using this
  have hp : (patch obj).ExpressionAttributeNames = nameEntries obj := by
    unfold patch
    simp only [hnames]
    split <;> rfl
  refine ⟨hp, ?_, append_left_cancel "#", append_left_cancel ":", ?_, ?_⟩
  · intro k v hk
    clear hn hnames hp h
    induction obj with
    | nil => cases hk
    | cons p rest ih =>
      obtain ⟨k', w⟩ := p
      by_cases e : k' = k
      · subst e; simp [nameEntries, Obj.get]
      · simp only [Obj.get, e, if_false] at hk
        have ne : ¬ ("#" ++ k' = "#" ++ k) := fun e' => e (append_left_cancel "#" _ _ e')
        have := ih hk
        simp only [nameEntries] at this
        simp [nameEntries, Obj.get, ne, this]
  · rw [hp]
    have := nodup_map_append_key "#" obj h
    simpa [Obj.WF, Obj.keys, nameEntries, Function.comp_def] using this
  · rw [hp]; simp [nameEntries]

/-- Witness of C6 on an object with a string, a null and a nested object: the
value map holds the string and the whole nested object, and nothing for the
null. -/
theorem patch_values_witness :
    Obj.WF [("name", Value.str "Bob"), ("age", Value.null),
        ("tags", Value.obj [("n", .num (IntNum.int 3))])]
      ∧ (patch [("name", Value.str "Bob"), ("age", Value.null),
          ("tags", Value.obj [("n", .num (IntNum.int 3))])]).ExpressionAttributeValues
        = some [(":name", attr (.str "Bob")), (":tags", attr (.obj [("n", .num (IntNum.int 3))]))] := by
  obtain ⟨h1, h2, _⟩ := patch_values [("name", Value.str "Bob"), ("age", Value.null),
    ("tags", Value.obj [("n", .num (IntNum.int 3))])] (by decide)
  refine ⟨by decide, ?_⟩
  cases hv : (patch [("name", Value.str "Bob"), ("age", Value.null),
    ("tags", Value.obj [("n", .num (IntNum.int 3))])]).ExpressionAttributeValues with
  | none =>
    have hs := h1.mpr ⟨("name", Value.str "Bob"), by simp, rfl⟩
    rw [hv] at hs
    cases hs
  | some vals =>
    rw [h2 vals hv]
    rfl

/-- Witness of C7 on an object with a string-valued and a null-valued key. -/
theorem patch_names_witness :
    Obj.WF [("name", (Value.str "Bob" : Value IntNum)), ("age", Value.null)]
      ∧ (patch [("name", (Value.str "Bob" : Value IntNum)),
          ("age", Value.null)]).ExpressionAttributeNames = [("#name", "name"), ("#age", "age")]
      ∧ (patch [("name", (Value.str "Bob" : Value IntNum)),
          ("age", Value.null)]).ExpressionAttributeNames.length = 2 :=
  have h := patch_names [("name", (Value.str "Bob" : Value IntNum)), ("age", Value.null)]
    (by decide)
  ⟨by decide, h.1, h.2.2.2.2.2⟩

/-! ## Hinted encoder (C8, C9) -/

theorem hintedAttr_ok (hints : AttrHints) (key : String) (value : Value ν)
    (h : Obj.get hints key = some "NS" → value.isArray = true) :
    hintedAttr hints key value = .ok (hintedAttrValue hints key value) := by
  unfold hintedAttrValue
  cases hr : hintedAttr hints key value with
  | ok r => rfl
  | error e =>
    exfalso
    unfold hintedAttr at hr
    split at hr
    · cases hr
    · split at hr
      · cases hr
      · split at hr
        · rename_i hns
          cases value <;> simp [Value.isArray] at h hr <;> exact h hns
        · cases hr

/-- When every `NS`-hinted key holds an array, `itemWithHints` returns the
object that holds, at each key other than `__proto__`, in place, what the
callback returns for it. -/
theorem itemWithHints_ok (hints : AttrHints) (obj : Obj (Value ν)) (h : Obj.WF obj)
    (hNS : NumberSetsAreArrays hints obj) :
    itemWithHints hints obj
      = .ok ((obj.filter (fun kv => decide (kv.1 ≠ "__proto__"))).map
          (fun kv => (kv.1, hintedAttrValue hints kv.1 kv.2))) := by
  unfold itemWithHints mapKeyValuePairs
  rw [foldlM_addProp_ok (fun kv => hintedAttr hints kv.1 kv.2)
    (fun kv => hintedAttrValue hints kv.1 kv.2) obj []
    (fun kv m => hintedAttr_ok hints kv.1 kv.2 (hNS kv m))]
  rw [foldl_addProp_filter (fun kv : String × Value ν => kv.1)
    (fun kv => hintedAttrValue hints kv.1 kv.2) obj [] (by simpa [Obj.keys, Obj.WF] using h)]
  simp

theorem map_jsString_num (ns : List ν) :
    (ns.map Value.num).map jsString = ns.map numberToString := by
  induction ns with
  | nil => rfl
  | cons n rest ih => simp [jsString]

/-- C8 (amended). Hinted encode of hinted keys: when every key of the object
hinted NS holds an array, itemWithHints returns an item in which a key other
than __proto__ that is hinted SS and holds a list of strings is encoded as SS of
that list, unchanged and in order, and a key other than __proto__ that is hinted
NS and holds a list of numbers is encoded as NS of the decimal text of each
number, in order. -/
theorem itemWithHints_hinted (hints : AttrHints) (obj : Obj (Value ν)) (h : Obj.WF obj)
    (hNS : NumberSetsAreArrays hints obj) :
    ∃ it, itemWithHints hints obj = .ok it ∧ ∀ k : String, k ≠ "__proto__" →
      (∀ xs : List String, Obj.get hints k = some "SS" →
          Obj.get obj k = some (.arr (xs.map Value.str)) →
          Obj.get it k = some (some { Attr.empty with SS := some (.arr (xs.map Value.str)) }))
      ∧ (∀ ns : List ν, Obj.get hints k = some "NS" →
          Obj.get obj k = some (.arr (ns.map Value.num)) →
          Obj.get it k = some (some { Attr.empty with NS := some (ns.map numberToString) })) := by
  refine ⟨_, itemWithHints_ok hints obj h hNS, ?_⟩
  intro k hk
  constructor
  · intro xs hh ho
    rw [get_filter_map obj (hintedAttrValue hints) k hk, ho]
    simp [hintedAttrValue, hintedAttr, hasProperty_of_get hints k _ hh, hh]
  · intro ns hh ho
    rw [get_filter_map obj (hintedAttrValue hints) k hk, ho]
    have e := map_jsString_num ns
    simp [hintedAttrValue, hintedAttr, hasProperty_of_get hints k _ hh, hh, e]

/-- Witness of C8: a string set and a number set are encoded side by side. -/
theorem itemWithHints_hinted_witness :
    Obj.WF [("a", Value.arr [.str "x", .str "y"]),
        ("n", Value.arr [.num (IntNum.int 1), .num (IntNum.int 22)])]
      ∧ NumberSetsAreArrays [("a", "SS"), ("n", "NS")]
        [("a", Value.arr [.str "x", .str "y"]),
          ("n", Value.arr [.num (IntNum.int 1), .num (IntNum.int 22)])]
      ∧ ∃ it, itemWithHints [("a", "SS"), ("n", "NS")]
          [("a", Value.arr [.str "x", .str "y"]),
            ("n", Value.arr [.num (IntNum.int 1), .num (IntNum.int 22)])] = .ok it
        ∧ Obj.get it "a" = some (some { Attr.empty with SS := some (.arr [.str "x", .str "y"]) })
        ∧ Obj.get it "n" = some (some { Attr.empty with NS := some ["1", "22"] }) := by
  refine ⟨by decide, by decide, ?_⟩
  obtain ⟨it, hit, hk⟩ := itemWithHints_hinted [("a", "SS"), ("n", "NS")]
    [("a", Value.arr [.str "x", .str "y"]),
      ("n", Value.arr [.num (IntNum.int 1), .num (IntNum.int 22)])] (by decide) (by decide)
  exact ⟨it, hit, (hk "a" (by decide)).1 ["x", "y"] rfl rfl,
    (hk "n" (by decide)).2 [IntNum.int 1, IntNum.int 22] rfl rfl⟩

/-- C8 as stated fails: the key a is hinted SS and holds a list of strings, but
the key b is hinted NS and holds a number, so the call throws a TypeError and
there is no item to read a from. -/
theorem itemWithHints_hinted_counterexample :
    Obj.get ([("a", "SS"), ("b", "NS")] : AttrHints) "a" = some "SS"
      ∧ Obj.get [("a", Value.arr [.str "x"]), ("b", Value.num (IntNum.int 5))] "a"
          = some (.arr ([ "x" ].map Value.str))
      ∧ itemWithHints [("a", "SS"), ("b", "NS")]
          [("a", Value.arr [.str "x"]), ("b", Value.num (IntNum.int 5))] = .error .typeError
      ∧ ¬ ∃ it, itemWithHints [("a", "SS"), ("b", "NS")]
            [("a", Value.arr [.str "x"]), ("b", Value.num (IntNum.int 5))] = .ok it
          ∧ Obj.get it "a"
            = some (some { Attr.empty with SS := some (.arr ([ "x" ].map Value.str)) }) := by
  refine ⟨rfl, rfl, rfl, ?_⟩
  rintro ⟨it, hit, _⟩
  have e : itemWithHints [("a", "SS"), ("b", "NS")]
      [("a", Value.arr [.str "x"]), ("b", Value.num (IntNum.int 5))]
      = (.error .typeError : Except (JsError IntNum) _) := rfl
  rw [e] at hit
  cases hit

/-- C9 (amended). Hints leave unhinted keys and nested structures unaffected:
when every key of the object hinted NS holds an array and no key of the object
is __proto__, itemWithHints returns an item with exactly the keys of the object,
in which every key that is not in the hints (no entry in the hints and not a
name inherited from Object.prototype) holds attr(obj[k]), which is item(obj)[k];
an unhinted array is encoded as L, and a key nested in an unhinted value is
encoded by the ordinary encoder even when its name is hinted. -/
theorem itemWithHints_unhinted (hints : AttrHints) (obj : Obj (Value ν)) (h : Obj.WF obj)
    (hNS : NumberSetsAreArrays hints obj) (hp : Obj.NoProto obj) :
    ∃ it, itemWithHints hints obj = .ok it
      ∧ Obj.keys it = Obj.keys obj
      ∧ (∀ k v, Obj.get obj k = some v → Obj.hasProperty hints k = false →
          Obj.get it k = some (some (attr v)) ∧ Obj.get (item obj) k = some (attr v))
      ∧ (∀ k xs, Obj.get obj k = some (.arr xs) → Obj.hasProperty hints k = false →
          Obj.get it k = some (some { Attr.empty with L := some (xs.map attr) }))
      ∧ itemWithHints [("a", "SS")] [("b", (Value.obj [("a", .arr [.str "x"])] : Value ν))]
          = .ok [("b", some (attr (.obj [("a", .arr [.str "x"])])))]
      ∧ attr (Value.obj [("a", .arr [.str "x"])] : Value ν)
          = { Attr.empty with
              M := some [("a", { Attr.empty with L := some [{ Attr.empty with S := some "x" }] })] } := by
  have hget : ∀ k v, Obj.get obj k = some v → Obj.hasProperty hints k = false →
      Obj.get (obj.map (fun kv => (kv.1, hintedAttrValue hints kv.1 kv.2))) k
        = some (some (attr v)) := by
    intro k v ho hh
    rw [get_map obj (hintedAttrValue hints) k, ho]
    simp [hintedAttrValue, hintedAttr, hh]
  have hok := itemWithHints_ok hints obj h hNS
  rw [keys_filter_noProto obj hp] at hok
  refine ⟨_, hok, ?_, ?_, ?_, rfl, rfl⟩
  · exact keys_map_snd obj (fun kv => hintedAttrValue hints kv.1 kv.2)
  · intro k v ho hh
    refine ⟨hget k v ho hh, ?_⟩
    unfold item
    rw [mapValues_eq_map obj attr h hp, get_map obj (fun _ => attr) k, ho]
    rfl
  · intro k xs ho hh
    rw [hget k _ ho hh, attr_arr]

/-- Witness of C9: the unhinted array b is encoded as a list next to the string
set a. -/
theorem itemWithHints_unhinted_witness :
    Obj.WF [("a", Value.arr [.str "x"]),
        ("b", Value.arr [.num (IntNum.int 1), .num (IntNum.int 2)])]
      ∧ NumberSetsAreArrays [("a", "SS")]
        [("a", Value.arr [.str "x"]),
          ("b", Value.arr [.num (IntNum.int 1), .num (IntNum.int 2)])]
      ∧ Obj.NoProto [("a", Value.arr [.str "x"]),
          ("b", Value.arr [.num (IntNum.int 1), .num (IntNum.int 2)])]
      ∧ ∃ it, itemWithHints [("a", "SS")]
          [("a", Value.arr [.str "x"]),
            ("b", Value.arr [.num (IntNum.int 1), .num (IntNum.int 2)])] = .ok it
        ∧ Obj.keys it = ["a", "b"]
        ∧ Obj.get it "b" = some (some { Attr.empty with
            L := some [{ Attr.empty with N := some "1" }, { Attr.empty with N := some "2" }] }) := by
  refine ⟨by decide, by decide, by decide, ?_⟩
  obtain ⟨it, hit, hkeys, _, harr, _⟩ := itemWithHints_unhinted [("a", "SS")]
    [("a", Value.arr [.str "x"]),
      ("b", Value.arr [.num (IntNum.int 1), .num (IntNum.int 2)])] (by decide) (by decide)
    (by decide)
  exact ⟨it, hit, hkeys, harr "b" _ rfl rfl⟩

/-- C9 as stated fails: the key b has no entry in the hints, but the key n is
hinted NS and holds a string, so the call throws a TypeError and returns no
item. -/
theorem itemWithHints_unhinted_counterexample :
    Obj.hasProperty ([("n", "NS")] : AttrHints) "b" = false
      ∧ Obj.get [("n", Value.str "12"), ("b", Value.arr [.num (IntNum.int 1)])] "b"
          = some (.arr [.num (IntNum.int 1)])
      ∧ itemWithHints [("n", "NS")]
          [("n", Value.str "12"), ("b", Value.arr [.num (IntNum.int 1)])] = .error .typeError
      ∧ ¬ ∃ it, itemWithHints [("n", "NS")]
            [("n", Value.str "12"), ("b", Value.arr [.num (IntNum.int 1)])] = .ok it
          ∧ Obj.get it "b" = some (some (attr (.arr [.num (IntNum.int 1)]))) := by
  refine ⟨rfl, rfl, rfl, ?_⟩
  rintro ⟨it, hit, _⟩
  have e : itemWithHints [("n", "NS")]
      [("n", Value.str "12"), ("b", Value.arr [.num (IntNum.int 1)])]
      = (.error .typeError : Except (JsError IntNum) _) := rfl
  rw [e] at hit
  cases hit

/-! ## Items (C10) -/

/-- The value a successful decode returns (`null` stands in on a failure, where
it is never read). -/
theorem fromAttr_ok_eq (a : Attr ν) (h : ∃ v, fromAttr a = .ok v) :
    fromAttr a = .ok (match fromAttr a with | .ok v => v | .error _ => .null) := by
  obtain ⟨v, hv⟩ := h
  rw [hv]

/-- On objects with no own key `__proto__`, `item` and `fromItem` keep the keys
and map the values: `item(obj)` holds `attr(obj[k])` at each key, and when
`fromAttr` succeeds on every value of an item, `fromItem` returns an object that
holds `fromAttr(it[k])` at each key. -/
theorem item_fromItem_pointwise_of_noProto (obj : Obj (Value ν)) (it : Item ν)
    (hobj : Obj.WF obj) (hit : Obj.WF it) (hpo : Obj.NoProto obj) (hpi : Obj.NoProto it)
    (hdec : ∀ kv ∈ it, ∃ v, fromAttr kv.2 = .ok v) :
    (Obj.keys (item obj) = Obj.keys obj
        ∧ ∀ k v, Obj.get obj k = some v → Obj.get (item obj) k = some (attr v))
      ∧ ∃ o, fromItem it = .ok o
          ∧ Obj.keys o = Obj.keys it
          ∧ ∀ k a, Obj.get it k = some a → ∃ v, fromAttr a = .ok v ∧ Obj.get o k = some v := by
  constructor
  · unfold item
    rw [mapValues_eq_map obj attr hobj hpo]
    refine ⟨keys_map_snd obj (fun kv => attr kv.2), ?_⟩
    intro k v hk
    rw [get_map obj (fun _ => attr) k, hk]
    rfl
  · let g : Attr ν → Value ν := fun a => match fromAttr a with | .ok v => v | .error _ => .null
    have hfold : fromItem it = .ok (it.map (fun kv => (kv.1, g kv.2))) := by
      unfold fromItem mapValuesE
      rw [foldlM_addProp_ok (fun kv => fromAttr kv.2) (fun kv => g kv.2) it []
        (fun kv m => fromAttr_ok_eq kv.2 (hdec kv m))]
      rw [foldl_addProp_nodup (fun kv : String × Attr ν => kv.1) (fun kv => g kv.2) it []
        (by simpa [Obj.keys, Obj.WF] using hit) ((noProto_iff it).mp hpi)]
      simp
    refine ⟨_, hfold, keys_map_snd it (fun kv => g kv.2), ?_⟩
    intro k a hk
    refine ⟨g a, fromAttr_ok_eq a (hdec (k, a) (get_some_mem it k a hk)), ?_⟩
    rw [get_map it (fun _ => g) k, hk]
    rfl

/-- C10. The functions item and fromItem on an object with the own key
__proto__ (as JSON.parse builds it): the helper assigns that key to the object
it builds, which adds no property, so item(obj) has the key a only, not the
keys of obj, and fromItem of the matching item has the key a only; without that
key both keep the keys and map the values. -/
theorem item_proto_key :
    item [("__proto__", Value.str "x"), ("a", Value.num (IntNum.int 1))]
        = [("a", { Attr.empty with N := some "1" })]
      ∧ Obj.keys (item [("__proto__", Value.str "x"), ("a", Value.num (IntNum.int 1))])
        ≠ Obj.keys [("__proto__", Value.str "x"), ("a", Value.num (IntNum.int 1))]
      ∧ fromItem [("__proto__", ({ Attr.empty with S := some "x" } : Attr IntNum)),
          ("a", { Attr.empty with N := some "1" })]
        = .ok [("a", Value.num (IntNum.int 1))]
      ∧ item [("b", Value.str "x"), ("a", Value.num (IntNum.int 1))]
        = [("b", { Attr.empty with S := some "x" }), ("a", { Attr.empty with N := some "1" })]
      ∧ fromItem [("b", ({ Attr.empty with S := some "x" } : Attr IntNum)),
          ("a", { Attr.empty with N := some "1" })]
        = .ok [("b", Value.str "x"), ("a", Value.num (IntNum.int 1))] := by
  refine ⟨rfl, ?_, rfl, rfl, rfl⟩
  have e : Obj.keys (item [("__proto__", Value.str "x"), ("a", Value.num (IntNum.int 1))])
      = ["a"] := rfl
  rw [e]
  decide

/-! ## Failure paths (C11) -/

/-- Structural induction on attributes: a property that holds of an attribute
when it holds of the elements of its `L` and of the values of its `M` holds of
every attribute. -/
theorem Attr.nestedInduct {ν : Type} {P : Attr ν → Prop}
    (step : ∀ a : Attr ν, (∀ xs, a.L = some xs → ∀ x ∈ xs, P x) →
      (∀ m, a.M = some m → ∀ kv ∈ m, P kv.2) → P a) : ∀ a, P a := by
  intro a
  refine Attr.rec (motive_1 := P)
    (motive_2 := fun L => ∀ xs, L = some xs → ∀ x ∈ xs, P x)
    (motive_3 := fun M => ∀ m, M = some m → ∀ kv ∈ m, P kv.2)
    (motive_4 := fun xs => ∀ x ∈ xs, P x)
    (motive_5 := fun m => ∀ kv ∈ m, P kv.2)
    (motive_6 := fun kv => P kv.2) ?_ ?_ ?_ ?_ ?_ ?_ ?_ ?_ ?_ ?_ a
  · intro S N BOOL NULL L M B SS NS hL hM
    exact step _ hL hM
  · intro xs h; cases h
  · intro val hval xs h; cases h; exact hval
  · intro m h; cases h
  · intro val hval m h; cases h; exact hval
  · intro x hx; cases hx
  · intro head tail hh ht x hx
    rcases List.mem_cons.mp hx with e | m
    · exact e ▸ hh
    · exact ht x m
  · intro kv hkv; cases hkv
  · intro head tail hh ht kv hkv
    rcases List.mem_cons.mp hkv with e | m
    · exact e ▸ hh
    · exact ht kv m
  · intro k a ha; exact ha

/-- An error that is the unknown-attribute error of an attribute with no
populated case. -/
theorem fromAttrList_error (xs : List (Attr ν)) (e : JsError ν)
    (ih : ∀ x ∈ xs, ∀ e, fromAttr x = .error e → ∃ b, e = .unknownAttribute b ∧ b.populated = 0)
    (h : fromAttrList xs = .error e) : ∃ b, e = .unknownAttribute b ∧ b.populated = 0 := by
  induction xs with
  | nil => cases h
  | cons x rest ihr =>
    simp only [fromAttrList] at h
    cases hx : fromAttr x with
    | error e' =>
      rw [hx] at h
      cases h
      exact ih x (List.mem_cons_self _ _) _ hx
    | ok v =>
      rw [hx] at h
      cases hr : fromAttrList rest with
      | error e' =>
        rw [hr] at h
        cases h
        exact ihr (fun y m => ih y (List.mem_cons_of_mem _ m)) hr
      | ok vs => rw [hr] at h; cases h

theorem fromAttrProps_error (m : Obj (Attr ν)) (o2 : Obj (Value ν)) (e : JsError ν)
    (ih : ∀ kv ∈ m, ∀ e, fromAttr kv.2 = .error e →
      ∃ b, e = .unknownAttribute b ∧ b.populated = 0)
    (h : fromAttrProps m o2 = .error e) : ∃ b, e = .unknownAttribute b ∧ b.populated = 0 := by
  induction m generalizing o2 with
  | nil => cases h
  | cons p rest ihr =>
    obtain ⟨k, a⟩ := p
    simp only [fromAttrProps] at h
    cases ha : fromAttr a with
    | error e' =>
      rw [ha] at h
      cases h
      exact ih (k, a) (List.mem_cons_self _ _) _ ha
    | ok v =>
      rw [ha] at h
      exact ihr _ (fun y m => ih y (List.mem_cons_of_mem _ m)) h

/-- Whatever the decoder throws is the unknown-attribute error of an attribute
with no populated case. -/
theorem fromAttr_error (a : Attr ν) :
    ∀ e, fromAttr a = .error e → ∃ b, e = .unknownAttribute b ∧ b.populated = 0 := by
  induction a using Attr.nestedInduct with
  | step a ihL ihM =>
    intro e h
    obtain ⟨S, N, BOOL, NULL, L, M, B, SS, NS⟩ := a
    cases S with
    | some s => cases h
    | none =>
    cases N with
    | some n => cases h
    | none =>
    cases BOOL with
    | some b => cases h
    | none =>
    cases NULL with
    | some b => cases h
    | none =>
    cases L with
    | some xs =>
      cases hx : fromAttrList xs with
      | error e' =>
        simp only [fromAttr, hx, Except.map] at h
        cases h
        exact fromAttrList_error xs _ (ihL xs rfl) hx
      | ok vs => simp [fromAttr, hx, Except.map] at h
    | none =>
    cases M with
    | some m =>
      cases hm : fromAttrProps m [] with
      | error e' =>
        simp only [fromAttr, hm, Except.map] at h
        cases h
        exact fromAttrProps_error m [] _ (ihM m rfl) hm
      | ok o => simp [fromAttr, hm, Except.map] at h
    | none =>
    cases B with
    | some b => cases h
    | none =>
    cases SS with
    | some w => cases h
    | none =>
    cases NS with
    | some ns => cases h
    | none =>
      simp only [fromAttr] at h
      cases h
      exact ⟨_, rfl, rfl⟩

theorem fromAttrList_ok (xs : List (Attr ν)) (h : ∀ x ∈ xs, ∃ v, fromAttr x = .ok v) :
    ∃ vs, fromAttrList xs = .ok vs := by
  induction xs with
  | nil => exact ⟨[], rfl⟩
  | cons x rest ih =>
    obtain ⟨v, hv⟩ := h x (List.mem_cons_self _ _)
    obtain ⟨vs, hvs⟩ := ih (fun y m => h y (List.mem_cons_of_mem _ m))
    exact ⟨v :: vs, by simp [fromAttrList, hv, hvs, Except.map]⟩

theorem fromAttrProps_ok (m : Obj (Attr ν)) (o2 : Obj (Value ν))
    (h : ∀ kv ∈ m, ∃ v, fromAttr kv.2 = .ok v) : ∃ o, fromAttrProps m o2 = .ok o := by
  induction m generalizing o2 with
  | nil => exact ⟨o2, rfl⟩
  | cons p rest ih =>
    obtain ⟨k, a⟩ := p
    obtain ⟨v, hv⟩ := h (k, a) (List.mem_cons_self _ _)
    obtain ⟨o, ho⟩ := ih (addProp o2 k v) (fun y m => h y (List.mem_cons_of_mem _ m))
    exact ⟨o, by simp [fromAttrProps, hv, ho]⟩

/-- C11. The unknown-attribute error is the only failure path of the decoder:
when the attribute and every attribute the decoder visits inside it (the
elements of a selected L, the values of a selected M) have at least one
populated case, fromAttr returns a value; on any attribute, what fromAttr throws
is the unknown-attribute error of an attribute with no populated case; and attr,
item and patch, which are total functions with no failure path, return a result
on every input. -/
theorem fromAttr_returns (a : Attr ν) (h : Decodable a) (b : Attr ν) (v : Value ν)
    (obj : Obj (Value ν)) :
    (∃ r, fromAttr a = .ok r)
      ∧ (∀ e, fromAttr b = .error e → ∃ c, e = .unknownAttribute c ∧ c.populated = 0)
      ∧ (∃ r, attr v = r) ∧ (∃ r, item obj = r) ∧ (∃ r, patch obj = r) := by
  refine ⟨?_, fromAttr_error b, ⟨_, rfl⟩, ⟨_, rfl⟩, ⟨_, rfl⟩⟩
  induction h with
  | intro a here inL inM ihL ihM =>
    obtain ⟨S, N, BOOL, NULL, L, M, B, SS, NS⟩ := a
    cases S with
    | some s => exact ⟨_, rfl⟩
    | none =>
    cases N with
    | some n => exact ⟨_, rfl⟩
    | none =>
    cases BOOL with
    | some b => exact ⟨_, rfl⟩
    | none =>
    cases NULL with
    | some b => exact ⟨_, rfl⟩
    | none =>
    cases L with
    | some xs =>
      obtain ⟨vs, hvs⟩ := fromAttrList_ok xs (ihL xs rfl rfl rfl rfl rfl)
      exact ⟨.arr vs, by simp [fromAttr, hvs, Except.map]⟩
    | none =>
    cases M with
    | some m =>
      obtain ⟨o, ho⟩ := fromAttrProps_ok m [] (ihM m rfl rfl rfl rfl rfl rfl)
      exact ⟨.obj o, by simp [fromAttr, ho, Except.map]⟩
    | none =>
    cases B with
    | some b => exact ⟨_, rfl⟩
    | none =>
    cases SS with
    | some w => exact ⟨_, rfl⟩
    | none =>
    cases NS with
    | some ns => exact ⟨_, rfl⟩
    | none => simp [Attr.populated] at here

/-- Witness of C11: a list whose elements are a string and a null decodes, and
an unselected M holding an empty attribute does not matter. -/
theorem fromAttr_returns_witness :
    Decodable ({ Attr.empty with
        L := some [{ Attr.empty with S := some "x" }, { Attr.empty with NULL := some true }]
        M := some [("k", Attr.empty)] } : Attr IntNum)
      ∧ (∃ r, fromAttr ({ Attr.empty with
          L := some [{ Attr.empty with S := some "x" }, { Attr.empty with NULL := some true }]
          M := some [("k", Attr.empty)] } : Attr IntNum) = .ok r)
      ∧ fromAttr ({ Attr.empty with
          L := some [{ Attr.empty with S := some "x" }, { Attr.empty with NULL := some true }]
          M := some [("k", Attr.empty)] } : Attr IntNum)
        = .ok (.arr [.str "x", .null]) := by
  have hd : Decodable ({ Attr.empty with
      L := some [{ Attr.empty with S := some "x" }, { Attr.empty with NULL := some true }]
      M := some [("k", Attr.empty)] } : Attr IntNum) := by
    refine Decodable.intro _ (by decide) ?_ ?_
    · intro xs _ _ _ _ hL x hx
      cases hL
      simp only [List.mem_cons, List.mem_singleton, List.not_mem_nil, or_false] at hx
      rcases hx with e | e
      · subst e
        exact Decodable.intro _ (by decide) (fun _ _ _ _ _ h => by cases h)
          (fun _ _ _ _ _ _ h => by cases h)
      · subst e
        exact Decodable.intro _ (by decide) (fun _ _ _ _ _ h => by cases h)
          (fun _ _ _ _ _ _ h => by cases h)
    · intro m _ _ _ _ hL
      cases hL
  exact ⟨hd, (fromAttr_returns _ hd (Attr.empty : Attr IntNum) Value.null []).1, rfl⟩

/-! ## Decoder priority and set decoding (C16, C17) -/

/-- C16. Decoder priority: fromAttr applies the decode rule of the first
populated case in the order S, N, BOOL, NULL, L, M, B, SS, NS, whatever the
later cases hold; an attribute with S and N populated decodes to the string of
S, and one with NULL and L populated decodes to null. -/
theorem fromAttr_priority (a : Attr ν) :
    (∀ s, a.S = some s → fromAttr a = .ok (.str s))
      ∧ (∀ n, a.S = none → a.N = some n → fromAttr a = .ok (.num (stringToNumber n)))
      ∧ (∀ b, a.S = none → a.N = none → a.BOOL = some b → fromAttr a = .ok (.bool b))
      ∧ (∀ b, a.S = none → a.N = none → a.BOOL = none → a.NULL = some b →
          fromAttr a = .ok .null)
      ∧ (∀ xs, a.S = none → a.N = none → a.BOOL = none → a.NULL = none → a.L = some xs →
          fromAttr a = (xs.mapM fromAttr).map Value.arr)
      ∧ (∀ m, a.S = none → a.N = none → a.BOOL = none → a.NULL = none → a.L = none →
          a.M = some m → fromAttr a = (mapValuesE m fromAttr).map Value.obj)
      ∧ (∀ b, a.S = none → a.N = none → a.BOOL = none → a.NULL = none → a.L = none →
          a.M = none → a.B = some b → fromAttr a = .ok (.str b))
      ∧ (∀ w, a.S = none → a.N = none → a.BOOL = none → a.NULL = none → a.L = none →
          a.M = none → a.B = none → a.SS = some w → fromAttr a = .ok w)
      ∧ (∀ ns, a.S = none → a.N = none → a.BOOL = none → a.NULL = none → a.L = none →
          a.M = none → a.B = none → a.SS = none → a.NS = some ns →
          fromAttr a = .ok (.arr (ns.map (fun s => .num (stringToNumber s)))))
      ∧ fromAttr ({ Attr.empty with S := some "s", N := some "1" } : Attr ν) = .ok (.str "s")
      ∧ fromAttr ({ Attr.empty with NULL := some true, L := some [Attr.empty] } : Attr ν)
          = .ok .null := by
  obtain ⟨S, N, BOOL, NULL, L, M, B, SS, NS⟩ := a
  refine ⟨?_, ?_, ?_, ?_, ?_, ?_, ?_, ?_, ?_, rfl, rfl⟩
  · rintro s ⟨⟩; rfl
  · rintro n ⟨⟩ ⟨⟩; rfl
  · rintro b ⟨⟩ ⟨⟩ ⟨⟩; rfl
  · rintro b ⟨⟩ ⟨⟩ ⟨⟩ ⟨⟩; rfl
  · rintro xs ⟨⟩ ⟨⟩ ⟨⟩ ⟨⟩ ⟨⟩
    simp only [fromAttr, fromAttrList_eq_mapM]
  · rintro m ⟨⟩ ⟨⟩ ⟨⟩ ⟨⟩ ⟨⟩ ⟨⟩
    simp only [fromAttr, fromAttrProps_eq_mapValuesE]
  · rintro b ⟨⟩ ⟨⟩ ⟨⟩ ⟨⟩ ⟨⟩ ⟨⟩ ⟨⟩; rfl
  · rintro w ⟨⟩ ⟨⟩ ⟨⟩ ⟨⟩ ⟨⟩ ⟨⟩ ⟨⟩ ⟨⟩; rfl
  · rintro ns ⟨⟩ ⟨⟩ ⟨⟩ ⟨⟩ ⟨⟩ ⟨⟩ ⟨⟩ ⟨⟩ ⟨⟩; rfl

/-- C17. Set decoding: SS of a list of strings decodes to that list itself,
NS of a list of decimal strings decodes to the list of the numbers read from
each string, in the same order and of the same length, and B of a string
decodes to the string. -/
theorem fromAttr_sets (xs ds : List String) (s : String) :
    fromAttr ({ Attr.empty with SS := some (.arr (xs.map Value.str)) } : Attr ν)
        = .ok (.arr (xs.map Value.str))
      ∧ (xs.map (Value.str : String → Value ν)).length = xs.length
      ∧ fromAttr ({ Attr.empty with NS := some ds } : Attr ν)
        = .ok (.arr (ds.map (fun d => .num (stringToNumber d))))
      ∧ (ds.map (fun d => (Value.num (stringToNumber d) : Value ν))).length = ds.length
      ∧ fromAttr ({ Attr.empty with B := some s } : Attr ν) = .ok (.str s) :=
  ⟨rfl, List.length_map _ _, rfl, List.length_map _ _, rfl⟩

/-! ## Patch builder: remove-only, separators, empty object (C13, C14, C19) -/

theorem setEntries_eq_nil {ν : Type} (obj : Obj (Value ν)) (h : ∀ kv ∈ obj, kv.2.isNullish = true) :
    setEntries obj = [] := by
  simp only [setEntries, List.map_eq_nil_iff, List.filter_eq_nil_iff]
  intro kv hkv
  simp [h kv hkv]

theorem removeNames_eq_map {ν : Type} (obj : Obj (Value ν)) (h : ∀ kv ∈ obj, kv.2.isNullish = true) :
    removeNames obj = obj.map (fun kv => "#" ++ kv.1) := by
  simp only [removeNames]
  rw [List.filter_eq_self.mpr h]

theorem patch_names_eq (obj : Obj (Value ν)) (h : Obj.WF obj) :
    (patch obj).ExpressionAttributeNames = nameEntries obj := by
  have hn := patch_fold_names obj ⟨[], [], [], []⟩
  have hnames : (obj.foldl patchStep ⟨[], [], [], []⟩).names = nameEntries obj := by
    rw [hn]
    have := foldl_addProp_nodup (fun kv : String × Value ν => "#" ++ kv.1)
      (fun kv => kv.1) obj [] (by simpa [Obj.keys] using nodup_map_append_key "#" obj h)
      (fun kv _ => hash_ne_proto kv.1)
    simpa [nameEntries] using this
  unfold patch
  simp only [hnames]
  split <;> rfl

theorem patch_values_none (obj : Obj (Value ν)) (h : setEntries obj = []) :
    (patch obj).ExpressionAttributeValues = none := by
  have hs := patch_fold_sets obj ⟨[], [], [], []⟩
  simp only [List.nil_append] at hs
  unfold patch
  simp only [hs, h]
  rfl

/-- C13. Patch, remove-only: for a non-empty object whose values are all null
or undefined, the update expression has no SET keyword: it is one space and
then the keyword REMOVE followed by the name placeholders #k of the keys in key
order (for age null: REMOVE #age after the space); the name map is #k to k, and
no value map is present. -/
theorem patch_removeOnly (obj : Obj (Value ν)) (hne : obj ≠ []) (hwf : Obj.WF obj)
    (hnull : ∀ kv ∈ obj, kv.2.isNullish = true) :
    (patch obj).UpdateExpression
        = " " ++ ("REMOVE " ++ ",".intercalate (obj.map (fun kv => "#" ++ kv.1)))
      ∧ (patch obj).ExpressionAttributeNames = obj.map (fun kv => ("#" ++ kv.1, kv.1))
      ∧ (patch obj).ExpressionAttributeValues = none
      ∧ (patch [("age", (Value.null : Value ν))]).UpdateExpression = " " ++ "REMOVE #age" := by
  refine ⟨?_, patch_names_eq obj hwf, patch_values_none obj (setEntries_eq_nil obj hnull), rfl⟩
  rw [patch_updateExpression_eq, setEntries_eq_nil obj hnull, removeNames_eq_map obj hnull]
  have hlen : (obj.map (fun kv => "#" ++ kv.1)).length ≠ 0 := by
    simpa using hne
  simp only [setClause, removeClause, join, hlen, List.length_nil, ne_eq, not_true_eq_false,
    not_false_eq_true, if_true, if_false]
  rfl

/-- Witness of C13 on an object with a null and an undefined value. -/
theorem patch_removeOnly_witness :
    ([("age", (Value.null : Value IntNum)), ("nick", Value.undefined)] ≠ [])
      ∧ Obj.WF [("age", (Value.null : Value IntNum)), ("nick", Value.undefined)]
      ∧ (∀ kv ∈ [("age", (Value.null : Value IntNum)), ("nick", Value.undefined)],
          kv.2.isNullish = true)
      ∧ (patch [("age", (Value.null : Value IntNum)), ("nick", Value.undefined)]).UpdateExpression
          = " REMOVE #age,#nick"
      ∧ (patch [("age", (Value.null : Value IntNum)),
          ("nick", Value.undefined)]).ExpressionAttributeValues = none := by
  have hn : ∀ kv ∈ [("age", (Value.null : Value IntNum)), ("nick", Value.undefined)],
      kv.2.isNullish = true := by
    intro kv hkv
    simp only [List.mem_cons, List.mem_singleton, List.not_mem_nil, or_false] at hkv
    rcases hkv with e | e <;> subst e <;> rfl
  have h := patch_removeOnly [("age", (Value.null : Value IntNum)), ("nick", Value.undefined)]
    (by simp) (by decide) hn
  exact ⟨by simp, by decide, hn, h.1.trans rfl, h.2.2.1⟩

theorem intercalate_go_eq (sep acc e : String) (rest : List String) :
    String.intercalate.go acc sep (e :: rest) = acc ++ sep ++ separatedBy sep (e :: rest) := by
  induction rest generalizing acc e with
  | nil => simp [String.intercalate.go, separatedBy]
  | cons e' r ih =>
    rw [String.intercalate.go, ih]
    simp [separatedBy, String.append_assoc]

/-- The built-in `join` puts the separator between consecutive texts, and
nowhere else. -/
theorem intercalate_eq_separatedBy (sep : String) (l : List String) :
    sep.intercalate l = separatedBy sep l := by
  cases l with
  | nil => rfl
  | cons e rest =>
    cases rest with
    | nil => rfl
    | cons e' r =>
      rw [String.intercalate, intercalate_go_eq]
      simp [separatedBy]

/-- C14 (amended). Patch list separators: consecutive entries of the SET clause
are separated by one comma with no space after it, as in SET a = b,c = d, and
consecutive names of the REMOVE clause are separated by one comma with no space
after it, as in REMOVE x,y. -/
theorem patch_separators (obj : Obj (Value ν)) :
    (patch obj).UpdateExpression
        = (if setEntries obj = [] then "" else "SET " ++ separatedBy "," (setEntries obj))
          ++ " "
          ++ (if removeNames obj = [] then "" else "REMOVE " ++ separatedBy "," (removeNames obj))
      ∧ (∀ e e' : String, ∀ rest : List String,
          separatedBy "," (e :: e' :: rest) = e ++ "," ++ separatedBy "," (e' :: rest))
      ∧ (patch [("a", (Value.str "x" : Value ν)), ("b", Value.bool true),
          ("x", Value.null), ("y", Value.null)]).UpdateExpression
        = "SET #a = :a,#b = :b REMOVE #x,#y" := by
  refine ⟨?_, fun _ _ _ => rfl, rfl⟩
  rw [patch_updateExpression_eq]
  simp only [setClause, removeClause, join, ne_eq, List.length_eq_zero, ite_not,
    intercalate_eq_separatedBy]

/-- C14 as stated fails: with two non-null keys the SET clause is
SET #a = :a,#b = :b, with no space after the comma, and with two null-valued
keys the REMOVE clause is REMOVE #x,#y. -/
theorem patch_separators_counterexample :
    (patch [("a", (Value.str "x" : Value IntNum)), ("b", Value.bool true)]).UpdateExpression
        = "SET #a = :a,#b = :b "
      ∧ (patch [("a", (Value.str "x" : Value IntNum)), ("b", Value.bool true)]).UpdateExpression
        ≠ "SET " ++ separatedBy ", "
            (setEntries [("a", (Value.str "x" : Value IntNum)), ("b", Value.bool true)]) ++ " "
      ∧ (patch [("x", (Value.null : Value IntNum)), ("y", Value.null)]).UpdateExpression
        = " REMOVE #x,#y"
      ∧ (patch [("x", (Value.null : Value IntNum)), ("y", Value.null)]).UpdateExpression
        ≠ " " ++ ("REMOVE " ++ separatedBy ", "
            (removeNames [("x", (Value.null : Value IntNum)), ("y", Value.null)])) := by
  refine ⟨rfl, ?_, rfl, ?_⟩ <;> decide

/-- C19. Patch of the empty object: its update expression is the single space,
with neither clause, its name map is empty and it has no value map; for an
object with at least one key the update expression holds a SET clause or a
REMOVE clause. -/
theorem patch_empty (obj : Obj (Value ν)) (hne : obj ≠ []) :
    patch ([] : Obj (Value ν)) = ⟨" ", [], none⟩
      ∧ (patch obj).UpdateExpression
          = setClause (setEntries obj) ++ " " ++ removeClause (removeNames obj)
      ∧ ((setEntries obj ≠ []
            ∧ setClause (setEntries obj) = "SET " ++ ",".intercalate (setEntries obj))
          ∨ (removeNames obj ≠ []
            ∧ removeClause (removeNames obj) = "REMOVE " ++ ",".intercalate (removeNames obj))) := by
  refine ⟨rfl, patch_updateExpression_eq obj, ?_⟩
  cases obj with
  | nil => exact absurd rfl hne
  | cons p rest =>
    by_cases hp : p.2.isNullish = true
    · right
      have hr : removeNames (p :: rest) ≠ [] := by simp [removeNames, hp]
      refine ⟨hr, ?_⟩
      simp [removeClause, join, hr]
    · left
      have hs : setEntries (p :: rest) ≠ [] := by simp [setEntries, hp]
      refine ⟨hs, ?_⟩
      simp [setClause, join, hs]

/-- Witness of C19 on an object with one null-valued key. -/
theorem patch_empty_witness :
    ([("age", (Value.null : Value IntNum))] ≠ [])
      ∧ patch ([] : Obj (Value IntNum)) = ⟨" ", [], none⟩
      ∧ (patch [("age", (Value.null : Value IntNum))]).UpdateExpression = " REMOVE #age" := by
  have h := patch_empty [("age", (Value.null : Value IntNum))] (by simp)
  exact ⟨by simp, h.1, h.2.1.trans rfl⟩

/-! ## Hint spelling and hinted round trip (C15, C18) -/

/-- C15. The hint map of the doc comment spells the number-set hint Ns: on it
the callback returns undefined for myNumberSet, which gets no attribute at all
(not NS of the decimal texts), while myStringSet is encoded as SS. -/
theorem itemWithHints_documented_hint :
    itemWithHints [("myStringSet", "SS"), ("myNumberSet", "Ns")]
        [("myStringSet", Value.arr [.str "a"]),
          ("myNumberSet", Value.arr [.num (IntNum.int 1), .num (IntNum.int 2)])]
      = .ok [("myStringSet", some { Attr.empty with SS := some (.arr [.str "a"]) }),
          ("myNumberSet", none)]
      ∧ itemWithHints [("myStringSet", "SS"), ("myNumberSet", "NS")]
        [("myStringSet", Value.arr [.str "a"]),
          ("myNumberSet", Value.arr [.num (IntNum.int 1), .num (IntNum.int 2)])]
      = .ok [("myStringSet", some { Attr.empty with SS := some (.arr [.str "a"]) }),
          ("myNumberSet", some { Attr.empty with NS := some ["1", "2"] })] :=
  ⟨rfl, rfl⟩

theorem hasKey_true_get {α : Type} (o : Obj α) (key : String)
    (h : Obj.hasKey o key = true) : ∃ v, Obj.get o key = some v ∧ (key, v) ∈ o := by
  induction o with
  | nil => cases h
  | cons p rest ih =>
    obtain ⟨k, w⟩ := p
    by_cases hk : k = key
    · subst hk
      exact ⟨w, by simp [Obj.get], List.mem_cons_self _ _⟩
    · simp only [Obj.hasKey, hk, if_false] at h
      obtain ⟨v, hv, hm⟩ := ih h
      exact ⟨v, by simp [Obj.get, hk, hv], List.mem_cons_of_mem _ hm⟩

theorem map_num_roundtrip (ns : List ν) (h : ∀ n ∈ ns, stringToNumber (numberToString n) = n) :
    (ns.map numberToString).map (fun s => (Value.num (stringToNumber s) : Value ν))
      = ns.map Value.num := by
  induction ns with
  | nil => rfl
  | cons n rest ih =>
    simp only [List.map_cons, h n (List.mem_cons_self _ _)]
    rw [ih (fun m hm => h m (List.mem_cons_of_mem _ hm))]

/-- Under the conditions of the hinted round trip, on a key that is not a name
inherited from `Object.prototype`, what the callback of `itemWithHints` returns
for a property decodes to the value of the property. -/
theorem fromAttr_hintedAttrValue (hints : AttrHints) (key : String) (value : Value ν)
    (hv : HintsAreSets hints) (hkey : key ∉ objectPrototypeKeys)
    (hSS : Obj.get hints key = some "SS" → ∃ xs : List String, value = .arr (xs.map Value.str))
    (hNS : Obj.get hints key = some "NS" →
      ∃ ns : List ν, value = .arr (ns.map Value.num)
        ∧ ∀ n ∈ ns, stringToNumber (numberToString n) = n)
    (hP : Obj.hasKey hints key = false → Plain value) (hF : ProtoFree value) :
    fromAttrOrUndefined (hintedAttrValue hints key value) = .ok value := by
  have hin : Obj.hasProperty hints key = Obj.hasKey hints key := by
    simp [Obj.hasProperty, hkey]
  cases hk : Obj.hasKey hints key with
  | false =>
    have : hintedAttrValue hints key value = some (attr value) := by
      simp [hintedAttrValue, hintedAttr, hin, hk]
    rw [this]
    exact fromAttr_attr_plain value (hP hk) hF
  | true =>
    obtain ⟨h, hget, hmem⟩ := hasKey_true_get hints key hk
    rcases hv (key, h) hmem with e | e
    · simp only at e
      subst e
      have : hintedAttrValue hints key value = some { Attr.empty with SS := some value } := by
        simp [hintedAttrValue, hintedAttr, hin, hk, hget]
      rw [this]
      rfl
    · simp only at e
      subst e
      obtain ⟨ns, hval, hns⟩ := hNS hget
      subst hval
      have e := map_jsString_num ns
      have : hintedAttrValue hints key (.arr (ns.map Value.num))
          = some { Attr.empty with NS := some (ns.map numberToString) } := by
        simp [hintedAttrValue, hintedAttr, hin, hk, hget, e]
      rw [this]
      show Except.ok (Value.arr ((ns.map numberToString).map
        (fun s => (Value.num (stringToNumber s) : Value ν)))) = _
      rw [map_num_roundtrip ns hns]

/-- Hinted round trip on the objects none of whose keys is a name inherited from
`Object.prototype` and none of whose values has an own key `__proto__` inside:
when every hint is `SS` or `NS` and the object is in the domain of the hinted
round trip, `itemWithHints` returns an item and `fromItem` of that item returns
the object. -/
theorem hinted_roundtrip_of_ownKeys (hints : AttrHints) (obj : Obj (Value ν))
    (hv : HintsAreSets hints) (hwf : Obj.WF obj) (hp : HintedPlain hints obj)
    (hkeys : ∀ kv ∈ obj, kv.1 ∉ objectPrototypeKeys) (hfree : ∀ kv ∈ obj, ProtoFree kv.2) :
    ∃ it, itemWithHints hints obj = .ok it ∧ fromHintedItem it = .ok obj := by
  have hNS : NumberSetsAreArrays hints obj := by
    intro kv hkv hh
    obtain ⟨ns, hval, _⟩ := (hp kv hkv).2.1 hh
    rw [hval]
    rfl
  have hnp : Obj.NoProto obj := by
    rw [noProto_iff]
    intro kv hkv e
    exact hkeys kv hkv (by rw [e]; decide)
  have hok := itemWithHints_ok hints obj hwf hNS
  rw [keys_filter_noProto obj hnp] at hok
  refine ⟨_, hok, ?_⟩
  let g : Option (Attr ν) → Value ν :=
    fun a => match fromAttrOrUndefined a with | .ok v => v | .error _ => .null
  have hdec : ∀ kv ∈ obj, fromAttrOrUndefined (hintedAttrValue hints kv.1 kv.2) = .ok kv.2 :=
    fun kv hkv => fromAttr_hintedAttrValue hints kv.1 kv.2 hv (hkeys kv hkv) (hp kv hkv).1
      (hp kv hkv).2.1 (hp kv hkv).2.2 (hfree kv hkv)
  have hg : ∀ kv ∈ obj.map (fun kv => (kv.1, hintedAttrValue hints kv.1 kv.2)),
      fromAttrOrUndefined kv.2 = .ok (g kv.2) := by
    intro kv hkv
    obtain ⟨p, hpm, rfl⟩ := List.mem_map.mp hkv
    simp only [g, hdec p hpm]
  have hnp2 : ∀ kv ∈ obj.map (fun kv => (kv.1, hintedAttrValue hints kv.1 kv.2)),
      kv.1 ≠ "__proto__" := by
    intro kv hkv
    obtain ⟨p, hpm, rfl⟩ := List.mem_map.mp hkv
    exact (noProto_iff obj).mp hnp p hpm
  unfold fromHintedItem mapValuesE
  rw [foldlM_addProp_ok (fun kv => fromAttrOrUndefined kv.2) (fun kv => g kv.2) _ [] hg]
  rw [foldl_addProp_nodup (fun kv : String × Option (Attr ν) => kv.1) (fun kv => g kv.2) _ []
    (by simpa [Obj.keys, Obj.WF, Function.comp_def] using hwf) hnp2]
  simp only [List.nil_append, List.map_map]
  congr 1
  have : ∀ kv ∈ obj, ((fun kv : String × Option (Attr ν) => (kv.1, g kv.2))
      ∘ (fun kv : String × Value ν => (kv.1, hintedAttrValue hints kv.1 kv.2))) kv = kv := by
    intro kv hkv
    simp only [Function.comp, g, hdec kv hkv]
  rw [List.map_congr_left this]
  simp

/-- C18. Hinted round trip on an object with the key constructor and an empty
hint map: constructor in hints is true, since every object inherits that name,
so the callback returns undefined for the key instead of the encoded string;
fromItem then throws a TypeError on the undefined property, where the object
should come back; an unhinted array at that key gets undefined as well, not L.
An own key __proto__ is lost.  On a key that no object inherits the same value
round-trips. -/
theorem hinted_roundtrip_inherited_key :
    itemWithHints [] [("constructor", (Value.str "x" : Value IntNum))]
        = .ok [("constructor", none)]
      ∧ fromHintedItem ([("constructor", none)] : Obj (Option (Attr IntNum)))
        = .error .typeError
      ∧ itemWithHints [] [("constructor", Value.arr [.num (IntNum.int 1), .num (IntNum.int 2)])]
        = .ok [("constructor", none)]
      ∧ itemWithHints [] [("__proto__", (Value.str "x" : Value IntNum))] = .ok []
      ∧ fromHintedItem ([] : Obj (Option (Attr IntNum))) = .ok []
      ∧ itemWithHints [] [("name", (Value.str "x" : Value IntNum))]
        = .ok [("name", some { Attr.empty with S := some "x" })]
      ∧ fromHintedItem [("name", some ({ Attr.empty with S := some "x" } : Attr IntNum))]
        = .ok [("name", Value.str "x")] :=
  ⟨rfl, rfl, rfl, rfl, rfl, rfl, rfl⟩

end AutoConvert
